import Mathlib

/-!
Verification development for the `codemirror-addon-toggle-comment` repository.

Shallow embedding of `EditorCommandHandlers.ts` (line/block comment toggling)
and `Document.doMultipleEdits`.  Strings are modelled as `List Char`; documents
as lists of lines (newline separators implicit); CodeMirror positions as
`line`/`ch` pairs.  JavaScript `||` on option fields is modelled through
explicit truthiness tests, and regular expressions built by the source are
modelled by equivalent decidable matchers.
-/

/-- Strings from the JS source are modelled as lists of characters. -/
abbrev Str := List Char

/-- JS whitespace (`\s` plus U+00A0, as used by the source's `nonWS` regex and
`\S` tests).  The full `\s` class also contains several more exotic Unicode
space characters; the common ones are listed here. -/
def isWsChar (c : Char) : Bool :=
  c = ' ' || c = '\t' || c = '\n' || c = '\r' ||
  c = '\x0b' || c = '\x0c' || c = '\u00A0'

/-- `line.match(/\S/)`: the line contains a non-whitespace character. -/
def hasNonWs (s : Str) : Bool := s.any (fun c => !(isWsChar c))

/-- `text.search(nonWS)` of `_firstNotWs`: index of the first
non-whitespace character, `-1` if none. -/
def _firstNotWs (text : Str) : Int :=
  match text.findIdx? (fun c => !(isWsChar c)) with
  | some i => (i : Int)
  | none => -1

/-- JS `String.prototype.indexOf`: index of the first occurrence of `sub`
in `s`, `none` for JS `-1`. -/
def jsIndexOf (s sub : Str) : Option Nat :=
  (List.range (s.length + 1)).find? (fun n => sub.isPrefixOf (s.drop n))

/-- JS `String.prototype.trim` (whitespace at both ends removed). -/
def jsTrim (s : Str) : Str :=
  ((s.dropWhile isWsChar).reverse.dropWhile isWsChar).reverse

/-- `text.split("\n")` of a (possibly multi-line) replacement string. -/
def splitLines (s : Str) : List Str :=
  match s with
  | [] => [[]]
  | c :: rest =>
    match splitLines rest with
    | [] => [[c]]
    | l :: ls => if c = '\n' then [] :: l :: ls else (c :: l) :: ls

/-- A zero-based CodeMirror position (`{line, ch}`). -/
structure Pos where
  line : Nat
  ch : Nat
deriving Repr, DecidableEq

/-- `CodeMirror.cmpPos`: lexicographic comparison, as a signed number. -/
def cmpPos (a b : Pos) : Int :=
  if a.line ≠ b.line then (a.line : Int) - b.line else (a.ch : Int) - b.ch

/-- A selection with the bookkeeping flag used by `doMultipleEdits`
(`isBeforeEdit`); the source stores `end`, named `stop` here. -/
structure Sel where
  start : Pos
  stop : Pos
  reversed : Bool
  primary : Bool
  isBeforeEdit : Bool
deriving Repr, DecidableEq

/-- One text edit as consumed by `doMultipleEdits`: replacement text plus the
replaced range (`end`, named `stop?` here, defaults to `start` when absent). -/
structure EditUnit where
  text : Str
  start : Pos
  stop? : Option Pos
deriving Repr, DecidableEq

/-- The `end` of an edit after the preflight defaulting (`edit.end = edit.start`
when unspecified). -/
def effEnd (e : EditUnit) : Pos := e.stop?.getD e.start

/-- An edit descriptor: a group of edits plus the selections tracked through
them.  A descriptor with no edits is the source's no-op descriptor. -/
structure Desc where
  edit : List EditUnit
  selection : List Sel
deriving Repr, DecidableEq

/-- Documents are lists of lines. `getLine` out of range yields the empty
line (the source never reads out of range). -/
def getLine (doc : List Str) (i : Nat) : Str := doc.getD i []

/-- `editor.indexFromPos`: character offset of a position, counting one
character per newline. -/
def indexFromPos (doc : List Str) (p : Pos) : Nat :=
  ((doc.take p.line).map (fun l => l.length + 1)).sum + p.ch

/-- `cm.replaceRange(text, start, end)`: splice `text` over the range
`[start, end)` of the document. -/
def replaceRange (text : Str) (start stop : Pos) (doc : List Str) : List Str :=
  let pre := (getLine doc start.line).take start.ch
  let post := (getLine doc stop.line).drop stop.ch
  let mid :=
    match splitLines text with
    | [] => [pre ++ post]
    | [t] => [pre ++ t ++ post]
    | t :: ts =>
      match ts.reverse with
      | [] => [pre ++ t ++ post]
      | tl :: midrev => (pre ++ t) :: (midrev.reverse ++ [tl ++ post])
  doc.take start.line ++ mid ++ doc.drop (stop.line + 1)

/-- `CodeMirror.changeEnd({text, from, to})`: the position just after the
inserted text. -/
def changeEnd (textLines : List Str) (start stop : Pos) : Pos :=
  match textLines with
  | [] => stop
  | _ =>
    { line := start.line + textLines.length - 1,
      ch := (textLines.getLast!).length + (if textLines.length = 1 then start.ch else 0) }

/-- `Document.adjustPosForChange`: re-map a position across one text change
(the private `CodeMirror.adjustForChange` rule). -/
def adjustPosForChange (pos : Pos) (textLines : List Str) (start stop : Pos) : Pos :=
  if cmpPos pos start < 0 then pos
  else if cmpPos pos stop ≤ 0 then changeEnd textLines start stop
  else
    let line : Int :=
      (pos.line : Int) + textLines.length - ((stop.line : Int) - start.line) - 1
    let ch : Int :=
      if pos.line = stop.line then
        (pos.ch : Int) + ((changeEnd textLines start stop).ch : Int) - stop.ch
      else (pos.ch : Int)
    { line := line.toNat, ch := ch.toNat }

/-- The comparator of `doMultipleEdits`'s descriptor sort, as a `≤`-style
relation: a descriptor with no edits sorts before everything; otherwise
descriptors sort descending by the start of their first edit. -/
def leDesc (d1 d2 : Desc) : Bool :=
  match d1.edit, d2.edit with
  | [], _ => true
  | _, [] => false
  | e1 :: _, e2 :: _ => cmpPos e2.start e1.start ≤ 0

/-- Propositional form of `leDesc` (for the sort). -/
def descLe (d1 d2 : Desc) : Prop := leDesc d1 d2 = true

instance : DecidableRel descLe := fun d1 d2 => by unfold descLe; infer_instance

/-- `edits.sort(...)` of `doMultipleEdits`: a stable sort by `leDesc`
(V8's `Array.prototype.sort` is stable). -/
def sortDescs (edits : List Desc) : List Desc := List.insertionSort descLe edits

/-- One step of the preflight check of `doMultipleEdits`: every edit of the
descriptor sorted second must end at or before the start of every edit of the
descriptor sorted first (the sort is descending, so the second descriptor's
edits lie earlier in the document). -/
def checkPair (dprev dcur : Desc) : Bool :=
  dcur.edit.all (fun e => dprev.edit.all (fun p => !(cmpPos (effEnd e) p.start > 0)))

/-- The preflight loop of `doMultipleEdits`: check each adjacent pair of
sorted descriptors, before any mutation.  (The `end`-defaulting the source
performs in the same loop is modelled by `effEnd`.) -/
def preflightOk : List Desc → Bool
  | [] => true
  | [_] => true
  | d1 :: d2 :: rest => checkPair d1 d2 && preflightOk (d2 :: rest)

/-- The per-edit selection fixup of `doMultipleEdits`: all selections are
re-mapped through the edit, except those of the descriptor currently being
applied that are not flagged `isBeforeEdit`. -/
def remapSel (index selIndex : Nat) (edit : EditUnit) (sel : Sel) : Sel :=
  if sel.isBeforeEdit || selIndex ≠ index then
    let textLines := splitLines edit.text
    { sel with
      start := adjustPosForChange sel.start textLines edit.start (effEnd edit),
      stop := adjustPosForChange sel.stop textLines edit.start (effEnd edit) }
  else sel

/-- Apply one edit of the descriptor at (sorted) position `index`: replace the
range in the buffer, then fix up every tracked selection list. -/
def applyOneEdit (index : Nat) (edit : EditUnit) (st : List Str × List (List Sel)) :
    List Str × List (List Sel) :=
  (replaceRange edit.text edit.start (effEnd edit) st.1,
   st.2.mapIdx (fun selIndex sels => sels.map (remapSel index selIndex edit)))

/-- The edit-application loop of `doMultipleEdits` (inside the one atomic
buffer operation): apply every descriptor's edits in sorted order, threading
the buffer and the cloned selection lists. -/
def applyEdits (sorted : List Desc) (doc : List Str) : List Str × List (List Sel) :=
  sorted.enum.foldl
    (fun st p => p.2.edit.foldl (fun st e => applyOneEdit p.1 e st) st)
    (doc, sorted.map (·.selection))

/-- Ascending final sort of the returned selections, by `start`. -/
def selLe (s1 s2 : Sel) : Prop := cmpPos s1.start s2.start ≤ 0

instance : DecidableRel selLe := fun s1 s2 => by unfold selLe; infer_instance

/-- `Document.doMultipleEdits`: sort the descriptors (no-ops first, then
descending by first-edit start), preflight-check non-overlap — throwing
before any buffer mutation on violation — then apply all edits re-mapping
tracked selections, and return the flattened, ascending-sorted selections
with the `isBeforeEdit` flag stripped.  (Descriptors lacking a `selection`
field are modelled by an empty selection list, so the source's
`undefined`-filtering is the identity here.) -/
def doMultipleEdits (doc : List Str) (edits : List Desc) :
    Except String (List Str × List Sel) :=
  let sorted := sortDescs edits
  if preflightOk sorted then
    let applied := applyEdits sorted doc
    let flat := applied.2.flatten
    let sortedSels := List.insertionSort selLe flat
    .ok (applied.1, sortedSels.map (fun s => { s with isBeforeEdit := false }))
  else .error "doMultipleEdits: Overlapping edits specified"

/-- The regular expressions built by `_createLineExpressions`: either the
plain `^\s*<pfx>` form, or the special form of `_createSpecialLineExp(pfx, block)`
that refuses to match when the line prefix would complete the block token. -/
inductive LineExp
  | simple (pfx : Str)
  | special (pfx block : Str)
deriving Repr, DecidableEq

/-- Matching of an anchored `^\s*...` regex: try the tail matcher at the
current position, else consume one whitespace character and retry
(the backtracking semantics of `\s*`). -/
def matchFromWs (p : Str → Bool) (s : Str) : Bool :=
  p s ||
    match s with
    | [] => false
    | c :: rest => isWsChar c && matchFromWs p rest

/-- Matching of one expression of `_createLineExpressions`.  The alternation
`($|...)` emitted by `_createSpecialLineExp` matches exactly when what follows
the line prefix does not begin the completion of the block token
(`block.drop pfx.length`); when the completion is empty the alternation
contains an empty branch and always matches. -/
def matchesExp (e : LineExp) (s : Str) : Bool :=
  match e with
  | .simple pfx => matchFromWs (fun s2 => pfx.isPrefixOf s2) s
  | .special pfx block =>
    matchFromWs
      (fun s2 =>
        pfx.isPrefixOf s2 &&
          (block.drop pfx.length = ([] : Str) ||
            !((block.drop pfx.length).isPrefixOf (s2.drop pfx.length))))
      s

/-- `_createLineExpressions`: one expression per line-comment prefix, except
that a prefix which begins the block-comment start (and/or the distinct
block-comment end) gets the corresponding special expression(s) instead.
JS string truthiness: an absent or empty block delimiter is skipped. -/
def _createLineExpressions (prefixes : List Str) (blockPfx blockSfx : Option Str) :
    List LineExp :=
  prefixes.flatMap (fun pfx =>
    let e1 : List LineExp :=
      match blockPfx with
      | some bp => if bp ≠ [] ∧ pfx.isPrefixOf bp then [LineExp.special pfx bp] else []
      | none => []
    let e2 : List LineExp :=
      match blockSfx with
      | some bs =>
        if bs ≠ [] ∧ blockPfx ≠ some bs ∧ pfx.isPrefixOf bs then [LineExp.special pfx bs]
        else []
      | none => []
    if e1 = [] ∧ e2 = [] then [LineExp.simple pfx] else e1 ++ e2)

/-- `_matchExpressions`: does any expression match the string? -/
def _matchExpressions (s : Str) (expressions : List LineExp) : Bool :=
  expressions.any (fun e => matchesExp e s)

/-- `_getLinePrefix` of the source (renamed): fold over the expressions,
keeping the longest prefix whose expression matches.  `prefixes.get? i`
models the source's `prefixes[index]`; an out-of-range access (possible only
when the two lists are misaligned, on which the source faults) leaves the
accumulator unchanged. -/
def _getLinePrefixMatch (s : Str) (expressions : List LineExp) (prefixes : List Str) :
    Option Str :=
  expressions.enum.foldl
    (fun result ie =>
      if matchesExp ie.2 s then
        match result with
        | some r =>
          if r ≠ [] then
            match prefixes.get? ie.1 with
            | some q => if r.length < q.length then some q else result
            | none => result
          else prefixes.get? ie.1
        | none => prefixes.get? ie.1
      else result)
    none

/-- The inclusive line range `[startLine, endLine]`, empty when
`endLine < startLine` (the JS loops run on signed numbers). -/
def rangeList (startLine endLine : Int) : List Nat :=
  (List.range ((endLine - startLine + 1).toNat)).map (fun (k : Nat) => (startLine + (k : Int)).toNat)

/-- `_containsNotLineComment`: is there a line in `[startLine, endLine]` that
has a non-whitespace character but matches none of the line-comment
expressions? -/
def _containsNotLineComment (doc : List Str) (startLine endLine : Int)
    (lineExp : List LineExp) : Bool :=
  (rangeList startLine endLine).any
    (fun i => hasNonWs (getLine doc i) && !(_matchExpressions (getLine doc i) lineExp))

/-- `options.lineComment` / a mode's `lineComment`: a single string or a list
of alternative prefixes. -/
inductive StrOrList
  | str (s : Str)
  | list (l : List Str)
deriving Repr, DecidableEq

/-- The comment delimiters effective at a position. -/
structure CommentDelimiters where
  lineComment : Option StrOrList := none
  blockCommentStart : Option Str := none
  blockCommentEnd : Option Str := none

/-- The `CommentOptions` structure.  `commentBlankLines` is documented by the
repository's README and exercised by its tests, but the option's handling is
absent from the copies of `EditorCommandHandlers.ts` in this snapshot; the
spec-modelled builder below gives it meaning. -/
structure CommentOptions where
  indent : Bool := false
  padding : Option Str := none
  commentBlankLines : Option Bool := none
  lineComment : Option StrOrList := none
  blockCommentStart : Option Str := none
  blockCommentEnd : Option Str := none
  getMode : Option (Pos → CommentDelimiters) := none

/-- `options.padding ? options.padding : ""`. -/
def paddingOf (options : CommentOptions) : Str := options.padding.getD []

/-- A line selection from `Editor.convertToLineSelections`. -/
structure LineSel where
  selectionForEdit : Sel
  selectionsToTrack : List Sel
deriving Repr, DecidableEq

/-- The `baseString` computation of the `indent` comment pass: the shortest
leading-whitespace run over the non-blank lines of the range (`""` if every
line is blank). -/
def baseStringOf (doc : List Str) (startLine endLine : Int) : Str :=
  let base :=
    (rangeList startLine endLine).foldl
      (fun (base : Option Str) i =>
        let line := getLine doc i
        let firstCharPosition := _firstNotWs line
        if line.length = 0 ∨ firstCharPosition = -1 then base
        else
          let whitespace := line.take firstCharPosition.toNat
          match base with
          | none => some whitespace
          | some b => if b.length > whitespace.length then some whitespace else base)
      none
  base.getD []

/-- One line's insertion of the `indent` comment pass (the body of the second
loop of `_getLineCommentPrefixEdit`'s indent branch). -/
def indentCommentLineEdit (doc : List Str) (baseString commentString : Str)
    (i : Nat) : EditUnit :=
  let line := getLine doc i
  let firstCharPosition := _firstNotWs line
  if firstCharPosition = -1 then
    if line.length = 0 then ⟨baseString ++ commentString, ⟨i, 0⟩, none⟩
    else if line.length = baseString.length then ⟨commentString, ⟨i, line.length⟩, none⟩
    else if line.length > baseString.length then ⟨commentString, ⟨i, baseString.length⟩, none⟩
    else ⟨baseString ++ commentString, ⟨i, 0⟩, none⟩
  else
    let cut := if line.take baseString.length ≠ baseString then firstCharPosition.toNat
               else baseString.length
    ⟨commentString, ⟨i, cut⟩, none⟩

/-- One line's removal of the uncomment pass: remove the longest matching
line-comment prefix (if the line has one) plus the padding immediately after
it.  A falsy (absent or empty) prefix yields no edit.  `jsIndexOf` cannot
miss when the prefix's expression matched, so the `getD 0` is never taken on
reachable inputs. -/
def uncommentLineEdit (doc : List Str) (lineExp : List LineExp) (prefixes : List Str)
    (padding : Str) (i : Nat) : Option EditUnit :=
  let line := getLine doc i
  match _getLinePrefixMatch line lineExp prefixes with
  | some pfx =>
    if pfx = [] then none
    else
      let commentI := (jsIndexOf line pfx).getD 0
      let endPos0 := commentI + pfx.length
      let endPos :=
        if (line.drop endPos0).take padding.length = padding then endPos0 + padding.length
        else endPos0
      some ⟨[], ⟨i, commentI⟩, some ⟨i, endPos⟩⟩
  | none => none

/-- The tracked-selection fixup of the comment pass: a selection starting at
column 0 and spanning a non-empty range keeps its start and widens its end
by the inserted text when its end line is the last affected line; every other
selection is flagged `isBeforeEdit` for generic re-mapping. -/
def fixTrackedSel (endLine : Int) (commentLen : Nat) (t : Sel) : Sel :=
  if t.start.ch = 0 ∧ cmpPos t.start t.stop ≠ 0 then
    { t with
      start := ⟨t.start.line, 0⟩,
      stop := ⟨t.stop.line, if (t.stop.line : Int) = endLine then t.stop.ch + commentLen else 0⟩ }
  else { t with isBeforeEdit := true }

/-- `_getLineCommentPrefixEdit`: decide comment vs. uncomment over the line
range of the (already line-expanded) selection, and synthesize the per-line
insertions or removals plus the tracked-selection handling. -/
def _getLineCommentPrefixEdit (doc : List Str) (prefixes : List Str)
    (blockPfx blockSfx : Option Str) (lineSel : LineSel) (options : CommentOptions) :
    Desc :=
  let sel := lineSel.selectionForEdit
  let trackedSels := lineSel.selectionsToTrack
  let lineExp := _createLineExpressions prefixes blockPfx blockSfx
  let startLine : Int := sel.start.line
  let endLine : Int := if sel.stop.ch = 0 then (sel.stop.line : Int) - 1 else sel.stop.line
  let containsNotLineComment := _containsNotLineComment doc startLine endLine lineExp
  let padding := paddingOf options
  if containsNotLineComment then
    let commentString := prefixes.headD [] ++ padding
    let editGroup :=
      if options.indent then
        let baseString := baseStringOf doc startLine endLine
        (rangeList startLine endLine).map (indentCommentLineEdit doc baseString commentString)
      else
        (rangeList startLine endLine).map
          (fun i => (⟨commentString, ⟨i, 0⟩, none⟩ : EditUnit))
    ⟨editGroup, trackedSels.map (fixTrackedSel endLine commentString.length)⟩
  else
    ⟨(rangeList startLine endLine).filterMap (uncommentLineEdit doc lineExp prefixes padding),
     trackedSels.map (fun t => { t with isBeforeEdit := true })⟩

/-- Modelled from the spec: the `commentBlankLines` handling of
`_getLineCommentPrefixEdit` (documented in the README and exercised by the
test suite, but missing from the snapshot's copies of
`EditorCommandHandlers.ts`).  Per the spec, when `commentBlankLines` is false
a line containing only whitespace is excluded from the scan entirely — it
neither blocks the "all-commented" check (which already ignores blank lines)
nor receives a comment during the comment pass; when true (the default) the
builder behaves exactly like `_getLineCommentPrefixEdit`. -/
def _getLineCommentPrefixEditBlank (doc : List Str) (prefixes : List Str)
    (blockPfx blockSfx : Option Str) (lineSel : LineSel) (options : CommentOptions) :
    Desc :=
  let sel := lineSel.selectionForEdit
  let trackedSels := lineSel.selectionsToTrack
  let lineExp := _createLineExpressions prefixes blockPfx blockSfx
  let startLine : Int := sel.start.line
  let endLine : Int := if sel.stop.ch = 0 then (sel.stop.line : Int) - 1 else sel.stop.line
  let containsNotLineComment := _containsNotLineComment doc startLine endLine lineExp
  let padding := paddingOf options
  let commentBlank := options.commentBlankLines.getD true
  if containsNotLineComment then
    let commentString := prefixes.headD [] ++ padding
    let eligible :=
      (rangeList startLine endLine).filter
        (fun i => commentBlank || hasNonWs (getLine doc i))
    let editGroup :=
      if options.indent then
        let baseString := baseStringOf doc startLine endLine
        eligible.map (indentCommentLineEdit doc baseString commentString)
      else
        eligible.map (fun i => (⟨commentString, ⟨i, 0⟩, none⟩ : EditUnit))
    ⟨editGroup, trackedSels.map (fixTrackedSel endLine commentString.length)⟩
  else
    ⟨(rangeList startLine endLine).filterMap (uncommentLineEdit doc lineExp prefixes padding),
     trackedSels.map (fun t => { t with isBeforeEdit := true })⟩

/-- A language-mode token: its line, `start`/`end` columns (named
`tstart`/`tend`), text, and type (`some "comment"` for comment tokens). -/
structure Token where
  line : Nat
  tstart : Nat
  tend : Nat
  str : Str
  type : Option String
deriving Repr, DecidableEq

/-- The external editor state consumed by the commands: the buffer lines, the
tokenization (in document order, tiling each line, with a zero-width token
for an empty line), whether a mode is available at the selections
(`getModeForRange` truthiness), the mode's own comment delimiters, and the
`indentWithTabs` option. -/
structure Editor where
  lines : List Str
  tokens : List Token := []
  hasMode : Bool := true
  cmMode : CommentDelimiters := {}
  indentWithTabs : Bool := false

/-- Modelled from the spec: a Token Cursor (`TokenUtils`, absent from the
snapshot's sources) — a position in the document together with the token at
that position.  `idx` indexes into the editor's token list. -/
structure Ctx where
  idx : Nat
  pos : Pos
deriving Repr, DecidableEq

/-- The token of a context (a dummy empty token outside the list, as
CodeMirror's `getTokenAt` always yields a token object). -/
def ctxToken (editor : Editor) (c : Ctx) : Token :=
  (editor.tokens.get? c.idx).getD ⟨c.pos.line, 0, 0, [], none⟩

/-- Modelled from the spec: `TokenUtils.getInitialContext` — the index of the
token containing the position (first token of the position's line for column
0, first token of a later line when the position's line is exhausted). -/
def getInitialCtx (tokens : List Token) (pos : Pos) : Ctx :=
  ⟨(tokens.findIdx? (fun t =>
      (t.line = pos.line ∧ pos.ch ≤ t.tend) ∨ t.line > pos.line)).getD tokens.length,
    pos⟩

/-- A token whose type is empty and whose text is whitespace-only
(`!ctx.token.type && !ctx.token.string.trim().length`). -/
def isWsToken (t : Token) : Bool := t.type = none && jsTrim t.str = []

/-- The probe position after a forward token move: one past the token start
on the same line, column 0 after a line crossing (the landed token then
starts the line). -/
def ctxPosNext (t : Token) : Pos := ⟨t.line, if t.tstart = 0 then 0 else t.tstart + 1⟩

/-- The probe position after a backward token move: the token's end. -/
def ctxPosPrev (t : Token) : Pos := ⟨t.line, t.tend⟩

/-- Modelled from the spec: `moveSkippingWhitespace(moveNextToken, ctx)` —
advance one token, then keep advancing over whitespace-only tokens; `none`
when the document end is reached. -/
def moveNextSkipWsAux (tokens : List Token) : Nat → Nat → Option Ctx
  | 0, _ => none
  | fuel + 1, j =>
    match tokens.get? (j + 1) with
    | some t =>
      if isWsToken t then moveNextSkipWsAux tokens fuel (j + 1)
      else some ⟨j + 1, ctxPosNext t⟩
    | none => none

/-- Forward skip-whitespace move from a context. -/
def moveNextSkipWs (editor : Editor) (c : Ctx) : Option Ctx :=
  moveNextSkipWsAux editor.tokens editor.tokens.length c.idx

/-- Modelled from the spec: `moveSkippingWhitespace(movePrevToken, ctx)`. -/
def movePrevSkipWsAux (tokens : List Token) : Nat → Nat → Option Ctx
  | 0, _ => none
  | fuel + 1, j =>
    if j = 0 then none
    else
      match tokens.get? (j - 1) with
      | some t =>
        if isWsToken t then movePrevSkipWsAux tokens fuel (j - 1)
        else some ⟨j - 1, ctxPosPrev t⟩
      | none => none

/-- Backward skip-whitespace move from a context. -/
def movePrevSkipWs (editor : Editor) (c : Ctx) : Option Ctx :=
  movePrevSkipWsAux editor.tokens editor.tokens.length c.idx

/-- The inner backward loop of `_isPrevTokenABlockComment`: keep moving
backward while the current token matches a line-comment expression.  Returns
the first non-line-comment context, `none` if the walk hits the document
start. -/
def backWhileLineComment (editor : Editor) (lineExp : List LineExp) :
    Nat → Ctx → Option Ctx
  | 0, _ => none
  | fuel + 1, c =>
    if _matchExpressions (ctxToken editor c).str lineExp then
      match movePrevSkipWs editor c with
      | some c2 => backWhileLineComment editor lineExp fuel c2
      | none => none
    else some c

/-- `_isPrevTokenABlockComment`: search backward (over contiguous line-comment
tokens) for a non-line-comment token; if it is a comment matching neither the
prefix nor the suffix pattern we are inside a block comment; a bare delimiter
with `prefix === suffix` flips the recursive answer; otherwise matching the
prefix pattern decides.  The recursion consumes `fuel` (each step moves
strictly backward, so `tokens.length` fuel is exact). -/
def _isPrevTokenABlockComment (editor : Editor) (pfx sfx : Str) (lineExp : List LineExp) :
    Nat → Ctx → Bool
  | 0, _ => false
  | fuel + 1, c =>
    match movePrevSkipWs editor c with
    | none => false
    | some c1 =>
      match backWhileLineComment editor lineExp (fuel + 1) c1 with
      | none => false
      | some c2 =>
        let t := ctxToken editor c2
        if t.type = some "comment" then
          if ¬(pfx.isPrefixOf t.str) ∧ ¬(sfx.isSuffixOf t.str) then true
          else if pfx = sfx ∧ t.str.length = pfx.length then
            ¬(_isPrevTokenABlockComment editor pfx sfx lineExp fuel c2)
          else pfx.isPrefixOf t.str
        else false

/-- The forward search of `_getBlockCommentPrefixSuffixEdit`: advance until a
comment-typed token is found; the running `result` goes false when the walk
leaves the selection (`indexFromPos(ctx.pos) <= selEndIndex`) or the document.
Returns (`result`, final context, `commentAtStart`). -/
def forwardToComment (editor : Editor) (selEndIndex : Nat) :
    Nat → Ctx → Bool → Bool → Bool × Ctx × Bool
  | 0, c, r, cas => (r, c, cas)
  | fuel + 1, c, r, cas =>
    if r ∧ (ctxToken editor c).type ≠ some "comment" then
      match moveNextSkipWs editor c with
      | some c2 =>
        let r2 := indexFromPos editor.lines c2.pos ≤ selEndIndex
        forwardToComment editor selEndIndex fuel c2 r2 false
      | none => (false, c, false)
    else (r, c, cas)

/-- Backward walk until the token matches a predicate (the prefix-position
search); returns whether a match was found plus the final context. -/
def backToMatch (editor : Editor) (p : Str → Bool) : Nat → Ctx → Bool × Ctx
  | 0, c => (false, c)
  | fuel + 1, c =>
    if p (ctxToken editor c).str then (true, c)
    else
      match movePrevSkipWs editor c with
      | some c2 => backToMatch editor p fuel c2
      | none => (false, c)

/-- Forward walk until the token matches a predicate (the suffix-position
search). -/
def fwdToMatch (editor : Editor) (p : Str → Bool) : Nat → Ctx → Bool × Ctx
  | 0, c => (false, c)
  | fuel + 1, c =>
    if p (ctxToken editor c).str then (true, c)
    else
      match moveNextSkipWs editor c with
      | some c2 => fwdToMatch editor p fuel c2
      | none => (false, c)

/-- The second-prefix `do..while` of `_getBlockCommentPrefixSuffixEdit`: move
forward while inside the selection bound and not on a prefix-pattern token.
Returns the final `result` and context; `invalidComment` is that result
conjoined with a prefix match at the final token. -/
def doWhileSecondPfx (editor : Editor) (pfx : Str) (selEndIndex : Nat) :
    Nat → Ctx → Bool × Ctx
  | 0, c => (false, c)
  | fuel + 1, c =>
    match moveNextSkipWs editor c with
    | none => (false, c)
    | some c2 =>
      let r := indexFromPos editor.lines c2.pos ≤ selEndIndex
      if r ∧ ¬(pfx.isPrefixOf (ctxToken editor c2).str) then
        doWhileSecondPfx editor pfx selEndIndex fuel c2
      else (r, c2)

/-- The outcome of the state classification of
`_getBlockCommentPrefixSuffixEdit`. -/
structure BlockClass where
  canComment : Bool
  invalidComment : Bool
  lineUncomment : Bool
  prefixPos : Option Pos
  suffixPos : Option Pos
deriving Repr, DecidableEq

/-- The state-classification phase of `_getBlockCommentPrefixSuffixEdit`
(lines 407–510 of the source): token walks deciding between `canComment`,
`invalidComment`, `lineUncomment` and block-uncomment (prefix/suffix found).
`hasSel` models `editor.hasSelection()`.  An absent block delimiter is
modelled as the empty string (lodash's `escapeRegExp(undefined)` is `""`, so
the prefix pattern `^` and suffix pattern `$` match every token, which is
exactly `isPrefixOf []` / `isSuffixOf []`). -/
def classifyBlockComment (editor : Editor) (pfx sfx : Str) (linePfxs : List Str)
    (sel : Sel) (hasSel : Bool) : BlockClass :=
  let tokens := editor.tokens
  let fuel := tokens.length + 1
  let ctx0 := getInitialCtx tokens sel.start
  let selEndIndex := indexFromPos editor.lines sel.stop
  let lineExp := _createLineExpressions linePfxs (some pfx) (some sfx)
  -- First move the context to the first non-whitespace token.
  let (result0, ctx1) :=
    if isWsToken (ctxToken editor ctx0) then
      match moveNextSkipWs editor ctx0 with
      | some c => (true, c)
      | none => (false, ctx0)
    else (true, ctx0)
  -- Move forward until a comment inside the selection.
  let (result, ctx2, commentAtStart) :=
    forwardToComment editor selEndIndex fuel ctx1 result0 true
  let tok := ctxToken editor ctx2
  if result ∧ tok.type = some "comment" then
    let isBlockComment :=
      if _matchExpressions tok.str lineExp then
        -- The doubled backslash in the source's `/^\\s*/` makes that regex
        -- match only strings starting with a literal backslash.
        if tok.tstart = 0 ∧ tok.str.head? ≠ some '\\' ∧ commentAtStart then
          _isPrevTokenABlockComment editor pfx sfx lineExp fuel
            ⟨ctx2.idx, ⟨ctx2.pos.line, tok.tstart⟩⟩
        else false
      else true
    if isBlockComment then
      -- If on a bare delimiter with prefix === suffix, step to the inside of
      -- the block comment first.
      let ctx3 :=
        if ¬(_matchExpressions tok.str lineExp) ∧ tok.str = pfx ∧ pfx = sfx then
          let atSuffix := _isPrevTokenABlockComment editor pfx sfx lineExp fuel
            ⟨ctx2.idx, ⟨ctx2.pos.line, tok.tstart⟩⟩
          if atSuffix then (movePrevSkipWs editor ctx2).getD ctx2
          else (moveNextSkipWs editor ctx2).getD ctx2
        else ctx2
      let initialPos := ctx3.pos
      let (foundP, cBack) := backToMatch editor (fun s => pfx.isPrefixOf s) fuel ctx3
      let prefixPos := if foundP then
          some ⟨(ctxToken editor cBack).line, (ctxToken editor cBack).tstart⟩
        else none
      -- Restore the context at the initial position when the prefix was found
      -- alone and prefix === suffix.
      let ctx4 :=
        if (ctxToken editor cBack).str = pfx ∧ pfx = sfx then getInitialCtx tokens initialPos
        else cBack
      let (foundS, cSuf) :=
        if foundP then fwdToMatch editor (fun s => sfx.isSuffixOf s) fuel ctx4
        else (false, ctx4)
      let suffixPos := if foundS then
          some ⟨(ctxToken editor cSuf).line, (ctxToken editor cSuf).tend - sfx.length⟩
        else none
      let (rr, cFin) := doWhileSecondPfx editor pfx selEndIndex fuel cSuf
      let invalidComment := rr && pfx.isPrefixOf (ctxToken editor cFin).str
      let suffixEnd := suffixPos.map (fun sp => (⟨sp.line, sp.ch + sfx.length⟩ : Pos))
      let canComment :=
        (match suffixEnd with
         | some se => decide (cmpPos sel.start se > 0)
         | none => false) ||
        (match prefixPos with
         | some pp => decide (cmpPos sel.stop pp < 0)
         | none => false)
      ⟨canComment, invalidComment, false, prefixPos, suffixPos⟩
    else
      -- A line comment: uncomment as lines when every line is commented.
      let endLine : Int :=
        if sel.stop.ch = 0 ∧ hasSel then (sel.stop.line : Int) - 1 else sel.stop.line
      if ¬(_containsNotLineComment editor.lines sel.start.line endLine lineExp) then
        ⟨false, false, true, none, none⟩
      else ⟨true, false, false, none, none⟩
  else ⟨true, false, false, none, none⟩

/-- The tracked-selection fixup of the block comment-out pass
(`updatePosForEdit`): adjust a position for the suffix insertion (positions
strictly after the selection end) and then for the prefix insertion
(positions at or after the selection start). -/
def updatePosForBlockInsert (selStart selStop : Pos) (pfx sfx padding : Str)
    (completeLineSel : Bool) (indentLineCmd : Bool) (startCh : Int) (pos : Pos) : Pos :=
  let pos1 :=
    if cmpPos pos selStop > 0 then
      if completeLineSel then ⟨pos.line + 1, pos.ch⟩
      else if pos.line = selStop.line then
        ⟨pos.line, pos.ch + sfx.length + padding.length * 2⟩
      else pos
    else pos
  if cmpPos pos1 selStart ≥ 0 then
    if completeLineSel then ⟨pos1.line + 1, pos1.ch⟩
    else if pos1.line = selStart.line ∧ ¬(indentLineCmd ∧ (pos1.ch : Int) < startCh) then
      ⟨pos1.line, pos1.ch + pfx.length + padding.length⟩
    else pos1
  else pos1

/-- The edit-synthesis phase of `_getBlockCommentPrefixSuffixEdit`
(lines 513–648 of the source), taking the classification outcome:
`invalidComment` yields the empty edit with the selections still tracked;
`lineUncomment` yields `none` (the delegate-to-line-comment signal);
`canComment` inserts prefix/suffix (whole-line or in-place, with the
indent-aware variants); otherwise the found prefix/suffix pair is removed
(whole delimiter lines when they stand alone).  On the (source-faulting)
state of a block-uncomment without a found prefix position, the no-op
descriptor is returned. -/
def mkBlockCommentEdit (editor : Editor) (pfx sfx : Str) (sel : Sel)
    (selectionsToTrack : List Sel) (command : String) (options : CommentOptions)
    (cls : BlockClass) : Option Desc :=
  let lines := editor.lines
  let indentLineComment := options.indent
  let indentLineCmd := indentLineComment ∧ command = "line"
  if cls.invalidComment then
    some ⟨[], selectionsToTrack⟩
  else if cls.lineUncomment then
    none
  else
    let padding := paddingOf options
    if cls.canComment then
      let completeLineSel :=
        sel.start.ch = 0 ∧ sel.stop.ch = 0 ∧ sel.start.line < sel.stop.line
      let startCh := _firstNotWs (getLine lines sel.start.line)
      let editGroup :=
        if completeLineSel then
          if indentLineCmd then
            let endCh := _firstNotWs (getLine lines (sel.stop.line - 1))
            let indentChar := if editor.indentWithTabs then '\t' else ' '
            [(⟨List.replicate endCh.toNat indentChar ++ sfx ++ ['\n'],
               ⟨sel.stop.line, 0⟩, none⟩ : EditUnit),
             ⟨pfx ++ ['\n'] ++ List.replicate startCh.toNat indentChar,
               ⟨sel.start.line, startCh.toNat⟩, none⟩]
          else
            [(⟨sfx ++ ['\n'], sel.stop, none⟩ : EditUnit),
             ⟨pfx ++ ['\n'], sel.start, none⟩]
        else
          [(⟨padding ++ sfx, sel.stop, none⟩ : EditUnit)] ++
            (if indentLineCmd then
              [(⟨pfx ++ padding, ⟨sel.start.line, startCh.toNat⟩, none⟩ : EditUnit)]
            else [(⟨pfx ++ padding, sel.start, none⟩ : EditUnit)])
      let upd := updatePosForBlockInsert sel.start sel.stop pfx sfx padding
        completeLineSel indentLineCmd startCh
      some ⟨editGroup,
        selectionsToTrack.map (fun t => { t with start := upd t.start, stop := upd t.stop })⟩
    else
      match cls.prefixPos with
      | none => some ⟨[], selectionsToTrack⟩
      | some pp =>
        let startLineStr := getLine lines pp.line
        let startLineTrimmed := jsTrim startLineStr
        let prefixAtStart := pp.ch = 0 && pfx.length = startLineTrimmed.length
        let prefixIndented := decide indentLineComment && pfx.length = startLineTrimmed.length
        let endLineStr :=
          match cls.suffixPos with
          | some sp => getLine lines sp.line
          | none => []
        let suffixAtStart :=
          match cls.suffixPos with
          | some sp => sp.ch = 0 && sfx.length = (jsTrim endLineStr).length
          | none => false
        let suffixIndented :=
          match cls.suffixPos with
          | some _ => decide indentLineComment && sfx.length = (jsTrim endLineStr).length
          | none => false
        let suffixEdits : List EditUnit :=
          match cls.suffixPos with
          | some sp =>
            if suffixIndented then [⟨[], ⟨sp.line, 0⟩, some ⟨sp.line + 1, 0⟩⟩]
            else if prefixAtStart && suffixAtStart then [⟨[], sp, some ⟨sp.line + 1, 0⟩⟩]
            else
              let paddingLength :=
                if padding ≠ [] ∧
                    (endLineStr.drop (sp.ch - padding.length)).take padding.length = padding
                then padding.length else 0
              [⟨[], ⟨sp.line, sp.ch - paddingLength⟩, some ⟨sp.line, sp.ch + sfx.length⟩⟩]
          | none => []
        let prefixEdits : List EditUnit :=
          if prefixIndented then [⟨[], ⟨pp.line, 0⟩, some ⟨pp.line + 1, 0⟩⟩]
          else if prefixAtStart && suffixAtStart then [⟨[], pp, some ⟨pp.line + 1, 0⟩⟩]
          else
            let openEnd0 := pp.ch + pfx.length
            let openEnd :=
              if padding ≠ [] ∧ (startLineStr.drop openEnd0).take padding.length = padding
              then openEnd0 + padding.length else openEnd0
            [⟨[], pp, some ⟨pp.line, openEnd⟩⟩]
        some ⟨suffixEdits ++ prefixEdits,
          selectionsToTrack.map (fun t => { t with isBeforeEdit := true })⟩

/-- `_getBlockCommentPrefixSuffixEdit`: classify the selection's comment
context by token walks, then synthesize the corresponding edit descriptor
(`none` = delegate to the line-comment builder).  A `null`
`selectionsToTrack` argument means "track a copy of the selection itself". -/
def _getBlockCommentPrefixSuffixEdit (editor : Editor) (pfx sfx : Str)
    (linePfxs : List Str) (sel : Sel) (selectionsToTrack? : Option (List Sel))
    (hasSel : Bool) (command : String) (options : CommentOptions) : Option Desc :=
  let selectionsToTrack := selectionsToTrack?.getD [sel]
  let cls := classifyBlockComment editor pfx sfx linePfxs sel hasSel
  mkBlockCommentEdit editor pfx sfx sel selectionsToTrack command options cls

/-- JS `a || b` for a string-or-list option (a string is falsy when empty;
an array is always truthy). -/
def jsOrSol (a b : Option StrOrList) : Option StrOrList :=
  match a with
  | some (StrOrList.str s) => if s = [] then b else a
  | some (StrOrList.list _) => a
  | none => b

/-- JS `a || b` for a string option. -/
def jsOrStr (a b : Option Str) : Option Str :=
  match a with
  | some s => if s = [] then b else a
  | none => b

/-- Truthiness of a resolved block delimiter. -/
def strTruthy (o : Option Str) : Bool :=
  match o with
  | some s => s ≠ []
  | none => false

/-- The delimiter resolution shared by `_getLineCommentEdits` and
`blockComment`: the mode consulted is `options.getMode(mode, sel.start)` when
supplied, else the editor mode's own delimiters; each option field then wins
over the mode's field when truthy (`options.lineComment || cmMode.lineComment`
and likewise for the block delimiters). -/
def resolveDelimiters (editorCmMode : CommentDelimiters) (options : CommentOptions)
    (pos : Pos) : CommentDelimiters :=
  let cmMode :=
    match options.getMode with
    | some f => f pos
    | none => editorCmMode
  { lineComment := jsOrSol options.lineComment cmMode.lineComment,
    blockCommentStart := jsOrStr options.blockCommentStart cmMode.blockCommentStart,
    blockCommentEnd := jsOrStr options.blockCommentEnd cmMode.blockCommentEnd }

/-- `_getLineCommentPrefixes`: normalize a string-or-list of prefixes to a
non-empty list, or the given default (`null` for the line command, `[]` for
the block command). -/
def _getLineCommentPrefixes (prefixes : Option StrOrList) (dflt : Option (List Str)) :
    Option (List Str) :=
  match prefixes with
  | none => dflt
  | some (StrOrList.str s) => if s = [] then dflt else some [s]
  | some (StrOrList.list l) => if l.length > 0 then some l else dflt

/-- `_getLineCommentPrefixSuffixEdit`: shrink a one-line line selection to
exclude the trailing newline, then run the block comment code tracking the
subsumed selections. -/
def _getLineCommentPrefixSuffixEdit (editor : Editor) (pfx sfx : Str)
    (lineSel : LineSel) (hasSel : Bool) (command : String) (options : CommentOptions) :
    Option Desc :=
  let sel0 := lineSel.selectionForEdit
  let sel :=
    if sel0.stop.line = sel0.start.line + 1 ∧ sel0.stop.ch = 0 then
      { sel0 with stop := ⟨sel0.start.line, (getLine editor.lines sel0.start.line).length⟩ }
    else sel0
  _getBlockCommentPrefixSuffixEdit editor pfx sfx [] sel
    (some lineSel.selectionsToTrack) hasSel command options

/-- Modelled from the spec: `Editor.convertToLineSelections` (the Selection
Normalizer; `Editor.ts` is absent from the snapshot's sources).  Expand each
selection to whole lines — the start to column 0; the end to the start of
the following line unless it already sits at column 0 of a line, the
selection is not a cursor, and `expandEndAtStartOfLine` is unset — and merge
a selection into the previous group when its expanded start falls within the
previous expanded range (end-inclusive exactly when `mergeAdjacent`),
keeping the original selections of a group in order as its
`selectionsToTrack`. -/
def convertToLineSelections (sels : List Sel)
    (expandEndAtStartOfLine mergeAdjacent : Bool) : List LineSel :=
  (sels.foldl
    (fun (acc : List LineSel) sel =>
      let newStart : Pos := ⟨sel.start.line, 0⟩
      let hasSelection := ¬(newStart.line = sel.stop.line ∧ newStart.ch = sel.stop.ch)
      let newStop : Pos :=
        if expandEndAtStartOfLine ∨ ¬hasSelection ∨ sel.stop.ch ≠ 0 then
          ⟨sel.stop.line + 1, 0⟩
        else sel.stop
      match acc with
      | prev :: rest =>
        let f := prev.selectionForEdit
        let within :=
          cmpPos f.start newStart ≤ 0 ∧
            (cmpPos newStart f.stop < 0 ∨ (mergeAdjacent ∧ cmpPos newStart f.stop = 0))
        if within then
          { selectionForEdit := { f with stop := ⟨newStop.line, f.stop.ch⟩ },
            selectionsToTrack := prev.selectionsToTrack ++ [sel] } :: rest
        else
          ⟨{ sel with start := newStart, stop := newStop }, [sel]⟩ :: prev :: rest
      | [] => [⟨{ sel with start := newStart, stop := newStop }, [sel]⟩])
    []).reverse

/-- The per-line-selection body of `_getLineCommentEdits`: resolve the
delimiters at the selection's start and build the line-comment edit (or fall
back to the block builder when only block syntax exists); a line selection
yielding no edit still contributes a no-op descriptor carrying its tracked
selections. -/
def lineSelEditDesc (editor : Editor) (hasSel : Bool) (command : String)
    (options : CommentOptions) (lineSel : LineSel) : Desc :=
  let sel := lineSel.selectionForEdit
  let edit? : Option Desc :=
    if editor.hasMode then
      let merged := resolveDelimiters editor.cmMode options sel.start
      match _getLineCommentPrefixes merged.lineComment none with
      | some linePfxs =>
        some (_getLineCommentPrefixEdit editor.lines linePfxs
          merged.blockCommentStart merged.blockCommentEnd lineSel options)
      | none =>
        if strTruthy merged.blockCommentStart || strTruthy merged.blockCommentEnd then
          _getLineCommentPrefixSuffixEdit editor
            (merged.blockCommentStart.getD []) (merged.blockCommentEnd.getD [])
            lineSel hasSel command options
        else none
    else none
  match edit? with
  | some e => e
  | none => ⟨[], lineSel.selectionsToTrack⟩

/-- `_getLineCommentEdits`: convert the selections to (unmerged-adjacent)
line selections and build one edit descriptor per line selection. -/
def _getLineCommentEdits (editor : Editor) (selections : List Sel) (hasSel : Bool)
    (command : String) (options : CommentOptions) : List Desc :=
  (convertToLineSelections selections false false).map
    (lineSelEditDesc editor hasSel command options)

/-- Whether the editor has a non-empty selection (`editor.hasSelection()`),
derived from the full selection set of the invocation. -/
def anySelNonEmpty (sels : List Sel) : Bool :=
  sels.any (fun s => cmpPos s.start s.stop ≠ 0)

/-- The `lineComment` command: build the line-comment edits for the current
selections and apply them through `doMultipleEdits`, returning the new buffer
lines and the new selections. -/
def lineCommand (editor : Editor) (sels : List Sel) (options : CommentOptions) :
    Except String (List Str × List Sel) :=
  doMultipleEdits editor.lines
    (_getLineCommentEdits editor sels (anySelNonEmpty sels) "line" options)

/-- The `blockComment` command: for each selection, resolve delimiters and
build a block-comment edit when block syntax exists (the default no-op
descriptor still tracks the selection otherwise); selections the block code
classifies as pure line comments are collected and handled by
`_getLineCommentEdits`; everything is applied through `doMultipleEdits`. -/
def blockCommand (editor : Editor) (sels : List Sel) (options : CommentOptions) :
    Except String (List Str × List Sel) :=
  let hasSel := anySelNonEmpty sels
  let step := sels.foldl
    (fun (acc : List Desc × List Sel) sel =>
      let edit? : Option Desc :=
        if editor.hasMode then
          let merged := resolveDelimiters editor.cmMode options sel.start
          let linePfxs := (_getLineCommentPrefixes merged.lineComment (some [])).getD []
          if strTruthy merged.blockCommentStart || strTruthy merged.blockCommentEnd then
            _getBlockCommentPrefixSuffixEdit editor
              (merged.blockCommentStart.getD []) (merged.blockCommentEnd.getD [])
              linePfxs sel none hasSel "block" options
          else some ⟨[], [sel]⟩
        else some ⟨[], [sel]⟩
      match edit? with
      | some e => (acc.1 ++ [e], acc.2)
      | none => (acc.1, acc.2 ++ [sel]))
    ([], [])
  let edits := step.1 ++ _getLineCommentEdits editor step.2 hasSel "block" options
  doMultipleEdits editor.lines edits

/-- Modelled from the spec: the per-line-selection body of
`_getLineCommentEdits` with the `commentBlankLines`-aware builder (see
`_getLineCommentPrefixEditBlank`). -/
def lineSelEditDescBlank (editor : Editor) (hasSel : Bool) (command : String)
    (options : CommentOptions) (lineSel : LineSel) : Desc :=
  let sel := lineSel.selectionForEdit
  let edit? : Option Desc :=
    if editor.hasMode then
      let merged := resolveDelimiters editor.cmMode options sel.start
      match _getLineCommentPrefixes merged.lineComment none with
      | some linePfxs =>
        some (_getLineCommentPrefixEditBlank editor.lines linePfxs
          merged.blockCommentStart merged.blockCommentEnd lineSel options)
      | none =>
        if strTruthy merged.blockCommentStart || strTruthy merged.blockCommentEnd then
          _getLineCommentPrefixSuffixEdit editor
            (merged.blockCommentStart.getD []) (merged.blockCommentEnd.getD [])
            lineSel hasSel command options
        else none
    else none
  match edit? with
  | some e => e
  | none => ⟨[], lineSel.selectionsToTrack⟩

/-- Modelled from the spec: `_getLineCommentEdits` with the
`commentBlankLines`-aware builder. -/
def _getLineCommentEditsBlank (editor : Editor) (selections : List Sel) (hasSel : Bool)
    (command : String) (options : CommentOptions) : List Desc :=
  (convertToLineSelections selections false false).map
    (lineSelEditDescBlank editor hasSel command options)

/-- Modelled from the spec: the `lineComment` command with the
`commentBlankLines`-aware builder. -/
def lineCommandBlank (editor : Editor) (sels : List Sel) (options : CommentOptions) :
    Except String (List Str × List Sel) :=
  doMultipleEdits editor.lines
    (_getLineCommentEditsBlank editor sels (anySelNonEmpty sels) "line" options)

/-- A well-formed edit: its range runs forward (the Edit Descriptor invariant
of the data model). -/
def wfEdit (e : EditUnit) : Prop := cmpPos e.start (effEnd e) ≤ 0

/-- Two edits properly overlap when each starts strictly before the other
ends: their replaced spans genuinely intersect. -/
def properOverlap (e p : EditUnit) : Prop :=
  cmpPos e.start (effEnd p) < 0 ∧ cmpPos p.start (effEnd e) < 0

/-- The start of a descriptor's first sub-edit (the descriptor sort key). -/
def firstEditStart (d : Desc) : Option Pos := d.edit.head?.map (fun e => e.start)

instance (e p : EditUnit) : Decidable (properOverlap e p) := by
  unfold properOverlap; infer_instance

instance (e : EditUnit) : Decidable (wfEdit e) := by
  unfold wfEdit; infer_instance

theorem hasNonWs_of_isPrefixOf {p s : Str} (h : p.isPrefixOf s = true)
    (hp : hasNonWs p = true) : hasNonWs s = true := by
  rw [List.isPrefixOf_iff_prefix] at h
  simp only [hasNonWs, List.any_eq_true] at hp ⊢
  obtain ⟨c, hc, hcw⟩ := hp
  exact ⟨c, h.subset hc, hcw⟩

theorem matchFromWs_isPrefixOf_false {p s : Str} (hs : hasNonWs s = false)
    (hp : hasNonWs p = true) :
    matchFromWs (fun s2 => p.isPrefixOf s2) s = false := by
  induction s with
  | nil =>
    rw [matchFromWs]
    simp only [Bool.or_false]
    by_cases h : p.isPrefixOf ([] : Str) = true
    · exact absurd (hasNonWs_of_isPrefixOf h hp) (by simp [hasNonWs])
    · exact Bool.of_not_eq_true h
  | cons c rest ih =>
    have hcw : isWsChar c = true := by
      by_contra hns
      simp only [hasNonWs, List.any_eq_false] at hs
      exact hs c (List.mem_cons_self _ _) (by simpa using hns)
    have hrest : hasNonWs rest = false := by
      simp only [hasNonWs, List.any_eq_false] at hs ⊢
      exact fun a ha => hs a (List.mem_cons_of_mem _ ha)
    rw [matchFromWs]
    have h1 : p.isPrefixOf (c :: rest) = false := by
      by_contra h
      rw [Bool.not_eq_false] at h
      rw [hasNonWs_of_isPrefixOf h hp] at hs
      cases hs
    simp [h1, hcw, ih hrest]

theorem createLineExpressions_no_block (prefixes : List Str) :
    _createLineExpressions prefixes none none = prefixes.map LineExp.simple := by
  induction prefixes with
  | nil => rfl
  | cons p ps ih =>
    simp only [_createLineExpressions, List.flatMap] at ih ⊢
    simp_all

theorem convertToLineSelections_cursor (l c : Nat) (r pr b : Bool) :
    convertToLineSelections [⟨⟨l, c⟩, ⟨l, c⟩, r, pr, b⟩] false false =
      [⟨⟨⟨l, 0⟩, ⟨l + 1, 0⟩, r, pr, b⟩, [⟨⟨l, c⟩, ⟨l, c⟩, r, pr, b⟩]⟩] := by
  simp only [convertToLineSelections, List.foldl]
  by_cases hc : c = 0 <;> simp [hc]

theorem doMultipleEdits_single_noop (doc : List Str) (sels : List Sel) :
    doMultipleEdits doc [⟨[], sels⟩] =
      .ok (doc,
        (List.insertionSort selLe sels).map (fun s => { s with isBeforeEdit := false })) := by
  simp [doMultipleEdits, sortDescs, List.insertionSort, preflightOk, applyEdits, List.enum]

theorem rangeList_same (l : Nat) : rangeList l l = [l] := by
  have h1 : ((l : Int) - (l : Int) + 1).toNat = 1 := by omega
  have h2 : List.range 1 = [0] := rfl
  rw [rangeList, h1, h2, List.map_singleton]
  congr 1

theorem getLinePrefixMatch_single_nomatch {p line : Str}
    (h : matchesExp (LineExp.simple p) line = false) :
    _getLinePrefixMatch line [LineExp.simple p] [p] = none := by
  simp [_getLinePrefixMatch, List.enum, h]

theorem blankBuilder_blankline (doc : List Str) (l : Nat) (p : Str)
    (r pr b : Bool) (tracked : List Sel) (options : CommentOptions)
    (hp : hasNonWs p = true) (hblank : hasNonWs (getLine doc l) = false) :
    _getLineCommentPrefixEditBlank doc [p] none none
      ⟨⟨⟨l, 0⟩, ⟨l + 1, 0⟩, r, pr, b⟩, tracked⟩ options =
      ⟨[], tracked.map (fun t => { t with isBeforeEdit := true })⟩ := by
  have hend : ((l + 1 : Nat) : Int) - 1 = (l : Int) := by push_cast; ring
  have hmatch : matchesExp (LineExp.simple p) (getLine doc l) = false := by
    simpa [matchesExp] using matchFromWs_isPrefixOf_false hblank hp
  have hcnc : _containsNotLineComment doc l l [LineExp.simple p] = false := by
    simp [_containsNotLineComment, rangeList_same, hblank]
  simp only [_getLineCommentPrefixEditBlank, hend, createLineExpressions_no_block,
    List.map, hcnc, Bool.false_eq_true, if_false]
  simp [uncommentLineEdit, getLinePrefixMatch_single_nomatch hmatch, rangeList_same, hcnc]

/-- C4: the claim says that when `options.getMode` is supplied, the resolved
delimiters come exclusively from the callback and the static
`lineComment`/`blockCommentStart`/`blockCommentEnd` options have no effect.
The code resolves `options.lineComment || cmMode.lineComment` (and likewise
for the block fields) even when `cmMode` came from `getMode`, so a truthy
static option overrides the callback's delimiters.  The repository's README
documents the claimed behavior ("When this options is used the lineComment,
blockCommentStart and blockCommentEnd options will be ignored"), so the code
contradicts its own documentation.  This theorem evaluates the resolution at
the failing input: `getMode` yields `//` while `options.lineComment` is `#`,
and `#` wins. -/
theorem c4_getMode_precedence_bug :
    (resolveDelimiters {}
      { getMode := some (fun _ => { lineComment := some (StrOrList.list [['/', '/']]) }),
        lineComment := some (StrOrList.str ['#']) }
      ⟨0, 0⟩).lineComment = some (StrOrList.str ['#']) ∧
    _getLineCommentPrefixes
      ((resolveDelimiters {}
        { getMode := some (fun _ => { lineComment := some (StrOrList.list [['/', '/']]) }),
          lineComment := some (StrOrList.str ['#']) }
        ⟨0, 0⟩).lineComment) none = some [['#']] := by
  exact ⟨rfl, rfl⟩

/-- C5 (counterexample): with `commentBlankLines = true` and a selection of a
single whitespace-only line, the claim says a line-comment marker is inserted
on that line; the builder instead classifies the group as fully commented
(blank lines are exempt from the scan), takes the uncomment pass, removes
nothing, and leaves text and selection unchanged — as the repository's own
test "should do nothing on whitespace line" (run with
`commentBlankLines: true`) asserts. -/
theorem c5_blank_line_counterexample :
    lineCommandBlank { lines := [[' ', ' ', ' ', ' ']], cmMode := {} }
      [⟨⟨0, 0⟩, ⟨0, 0⟩, false, true, false⟩]
      { commentBlankLines := some true, lineComment := some (StrOrList.str ['/', '/']) } =
      .ok ([[' ', ' ', ' ', ' ']], [⟨⟨0, 0⟩, ⟨0, 0⟩, false, true, false⟩]) := rfl

/-- C5 (amended): for a line-comment toggle whose selection covers exactly one
whitespace-only line (a cursor anywhere on that line), the operation produces
no text change and no selection change under BOTH settings of
`commentBlankLines` — the blank line is exempt from the commented-state scan,
so the group uncomments, and there is no prefix to remove. -/
theorem c5_blank_line_noop (doc : List Str) (l c : Nat) (p : Str) (b r pr : Bool)
    (hp : hasNonWs p = true)
    (hblank : hasNonWs (getLine doc l) = false) :
    lineCommandBlank { lines := doc, cmMode := {} } [⟨⟨l, c⟩, ⟨l, c⟩, r, pr, false⟩]
      { commentBlankLines := some b, lineComment := some (StrOrList.str p) } =
      .ok (doc, [⟨⟨l, c⟩, ⟨l, c⟩, r, pr, false⟩]) := by
  have hpne : ¬(p = []) := by
    intro h; subst h; simp [hasNonWs] at hp
  rw [lineCommandBlank, _getLineCommentEditsBlank, convertToLineSelections_cursor]
  simp only [List.map, lineSelEditDescBlank, resolveDelimiters, jsOrSol, jsOrStr,
    _getLineCommentPrefixes, if_neg hpne]
  rw [blankBuilder_blankline doc l p r pr false [⟨⟨l, c⟩, ⟨l, c⟩, r, pr, false⟩] _ hp hblank]
  simp only [if_true, List.map]
  rw [doMultipleEdits_single_noop]
  simp [List.insertionSort, List.orderedInsert]

/-- C5 (witness): the amended no-op theorem applied at a concrete
whitespace-only line with `commentBlankLines = false`. -/
theorem c5_blank_line_noop_witness :
    hasNonWs ['/', '/'] = true ∧
    hasNonWs (getLine [['x'], [' ', '\t', ' ']] 1) = false ∧
    lineCommandBlank { lines := [['x'], [' ', '\t', ' ']], cmMode := {} }
      [⟨⟨1, 2⟩, ⟨1, 2⟩, false, true, false⟩]
      { commentBlankLines := some false, lineComment := some (StrOrList.str ['/', '/']) } =
      .ok ([['x'], [' ', '\t', ' ']], [⟨⟨1, 2⟩, ⟨1, 2⟩, false, true, false⟩]) :=
  ⟨by decide, by decide,
    c5_blank_line_noop [['x'], [' ', '\t', ' ']] 1 2 ['/', '/'] false false true
      (by decide) (by decide)⟩

theorem indentCommentLineEdit_stop (doc : List Str) (base cs : Str) (i : Nat) :
    (indentCommentLineEdit doc base cs i).stop? = none := by
  simp only [indentCommentLineEdit]
  split_ifs <;> rfl

theorem uncommentLineEdit_shape {doc : List Str} {exps : List LineExp}
    {prefixes : List Str} {padding : Str} {i : Nat} {ed : EditUnit}
    (h : uncommentLineEdit doc exps prefixes padding i = some ed) :
    ed.text = [] ∧ ed.stop?.isSome = true := by
  simp only [uncommentLineEdit] at h
  rcases hm : _getLinePrefixMatch (getLine doc i) exps prefixes with _ | pfx
  · rw [hm] at h; cases h
  · rw [hm] at h
    by_cases hp : pfx = []
    · simp [hp] at h
    · simp only [if_neg hp, Option.some.injEq] at h
      subst h
      exact ⟨rfl, rfl⟩

/-- C6: the Line-Comment Edit Builder uncomments exactly when every line in
the scanned range that contains a non-whitespace character matches one of the
line-comment-prefix expressions (whitespace-only lines are ignored by the
scan, so they never flip the decision); when some non-blank line fails to
match, the whole group is commented (all edits are insertions); when all
match, the uncomment pass runs (all edits are deletions). -/
theorem c6_uncomment_iff_all_commented (doc : List Str) (prefixes : List Str) (bp bs : Option Str)
    (lineSel : LineSel) (options : CommentOptions) :
    let exps := _createLineExpressions prefixes bp bs
    let s : Int := lineSel.selectionForEdit.start.line
    let e : Int :=
      if lineSel.selectionForEdit.stop.ch = 0 then
        (lineSel.selectionForEdit.stop.line : Int) - 1
      else lineSel.selectionForEdit.stop.line
    (_containsNotLineComment doc s e exps = false ↔
      ∀ i ∈ rangeList s e,
        hasNonWs (getLine doc i) = true → _matchExpressions (getLine doc i) exps = true) ∧
    (_containsNotLineComment doc s e exps = true →
      ∀ ed ∈ (_getLineCommentPrefixEdit doc prefixes bp bs lineSel options).edit,
        ed.stop? = none) ∧
    (_containsNotLineComment doc s e exps = false →
      ∀ ed ∈ (_getLineCommentPrefixEdit doc prefixes bp bs lineSel options).edit,
        ed.text = [] ∧ ed.stop?.isSome = true) := by
  intro exps s e
  refine ⟨?_, ?_, ?_⟩
  · rw [← Bool.not_eq_true, _containsNotLineComment, List.any_eq_true]
    push_neg
    constructor
    · intro h i hi hnw
      have := h i hi
      simp only [hnw, Bool.true_and, Bool.not_eq_true'] at this
      simpa using this
    · intro h i hi
      by_cases hnw : hasNonWs (getLine doc i) = true
      · simp [hnw, h i hi hnw]
      · simp [Bool.of_not_eq_true hnw]
  · intro h ed hm
    simp only [_getLineCommentPrefixEdit, h, if_true] at hm
    by_cases hind : options.indent = true
    · rw [if_pos hind] at hm
      obtain ⟨i, _, rfl⟩ := List.mem_map.mp hm
      exact indentCommentLineEdit_stop _ _ _ _
    · rw [if_neg hind] at hm
      obtain ⟨i, _, rfl⟩ := List.mem_map.mp hm
      rfl
  · intro h ed hm
    simp only [_getLineCommentPrefixEdit, h, Bool.false_eq_true, if_false] at hm
    obtain ⟨i, _, hsome⟩ := List.mem_filterMap.mp hm
    exact uncommentLineEdit_shape hsome

theorem glpmStep_mono (line : Str) (prefixes : List Str) :
    ∀ (pairs : List (Nat × LineExp)) (r : Str) (res : Str),
      List.foldl (fun result ie =>
          if matchesExp ie.2 line then
            match result with
            | some r =>
              if r ≠ [] then
                match prefixes.get? ie.1 with
                | some q => if r.length < q.length then some q else result
                | none => result
              else prefixes.get? ie.1
            | none => prefixes.get? ie.1
          else result) (some r) pairs = some res →
      r.length ≤ res.length := by
  intro pairs
  induction pairs with
  | nil => intro r res h; simp only [List.foldl] at h; cases h; rfl
  | cons pr rest ih =>
    intro r res h
    simp only [List.foldl] at h
    by_cases hr : r = []
    · subst hr; simp
    · by_cases hmm : matchesExp pr.2 line = true
      · rcases hg : prefixes.get? pr.1 with _ | q
        · simp only [if_pos hmm, if_pos hr, hg] at h
          exact ih r res h
        · by_cases hlt : r.length < q.length
          · simp only [if_pos hmm, if_pos hr, hg, if_pos hlt] at h
            exact le_trans (le_of_lt hlt) (ih q res h)
          · simp only [if_pos hmm, if_pos hr, hg, if_neg hlt] at h
            exact ih r res h
      · rw [if_neg hmm] at h
        exact ih r res h

theorem glpmStep_provenance (line : Str) (prefixes : List Str) :
    ∀ (pairs : List (Nat × LineExp)) (acc : Option Str) (res : Str),
      List.foldl (fun result ie =>
          if matchesExp ie.2 line then
            match result with
            | some r =>
              if r ≠ [] then
                match prefixes.get? ie.1 with
                | some q => if r.length < q.length then some q else result
                | none => result
              else prefixes.get? ie.1
            | none => prefixes.get? ie.1
          else result) acc pairs = some res →
      acc = some res ∨
        ∃ pr ∈ pairs, prefixes.get? pr.1 = some res ∧ matchesExp pr.2 line = true := by
  intro pairs
  induction pairs with
  | nil => intro acc res h; simp only [List.foldl] at h; exact Or.inl h
  | cons pr rest ih =>
    intro acc res h
    simp only [List.foldl] at h
    by_cases hmm : matchesExp pr.2 line = true
    · rcases acc with _ | r
      · simp only [if_pos hmm] at h
        rcases ih _ _ h with h1 | ⟨pr2, hpr2, hg2, hm2⟩
        · exact Or.inr ⟨pr, List.mem_cons_self _ _, h1, hmm⟩
        · exact Or.inr ⟨pr2, List.mem_cons_of_mem _ hpr2, hg2, hm2⟩
      · by_cases hr : r = []
        · subst hr
          simp only [if_pos hmm, ne_eq, not_true_eq_false, if_false] at h
          rcases ih _ _ h with h1 | ⟨pr2, hpr2, hg2, hm2⟩
          · exact Or.inr ⟨pr, List.mem_cons_self _ _, h1, hmm⟩
          · exact Or.inr ⟨pr2, List.mem_cons_of_mem _ hpr2, hg2, hm2⟩
        · rcases hg : prefixes.get? pr.1 with _ | q
          · simp only [if_pos hmm, if_pos hr, hg] at h
            rcases ih _ _ h with h1 | ⟨pr2, hpr2, hg2, hm2⟩
            · exact Or.inl h1
            · exact Or.inr ⟨pr2, List.mem_cons_of_mem _ hpr2, hg2, hm2⟩
          · by_cases hlt : r.length < q.length
            · simp only [if_pos hmm, if_pos hr, hg, if_pos hlt] at h
              rcases ih _ _ h with h1 | ⟨pr2, hpr2, hg2, hm2⟩
              · exact Or.inr ⟨pr, List.mem_cons_self _ _, h1 ▸ hg, hmm⟩
              · exact Or.inr ⟨pr2, List.mem_cons_of_mem _ hpr2, hg2, hm2⟩
            · simp only [if_pos hmm, if_pos hr, hg, if_neg hlt] at h
              rcases ih _ _ h with h1 | ⟨pr2, hpr2, hg2, hm2⟩
              · exact Or.inl h1
              · exact Or.inr ⟨pr2, List.mem_cons_of_mem _ hpr2, hg2, hm2⟩
    · rw [if_neg hmm] at h
      rcases ih _ _ h with h1 | ⟨pr2, hpr2, hg2, hm2⟩
      · exact Or.inl h1
      · exact Or.inr ⟨pr2, List.mem_cons_of_mem _ hpr2, hg2, hm2⟩

theorem glpmStep_dominates (line : Str) (prefixes : List Str) :
    ∀ (pairs : List (Nat × LineExp)) (acc : Option Str) (res : Str),
      List.foldl (fun result ie =>
          if matchesExp ie.2 line then
            match result with
            | some r =>
              if r ≠ [] then
                match prefixes.get? ie.1 with
                | some q => if r.length < q.length then some q else result
                | none => result
              else prefixes.get? ie.1
            | none => prefixes.get? ie.1
          else result) acc pairs = some res →
      ∀ pr ∈ pairs, matchesExp pr.2 line = true →
        ∀ q, prefixes.get? pr.1 = some q → q.length ≤ res.length := by
  intro pairs
  induction pairs with
  | nil => intro acc res _ pr hpr; cases hpr
  | cons pr0 rest ih =>
    intro acc res h pr hpr hm q hq
    simp only [List.foldl] at h
    rcases List.mem_cons.mp hpr with rfl | htail
    · -- the head pair: after its step the accumulator dominates q
      rw [if_pos hm, hq] at h
      rcases acc with _ | r
      · exact glpmStep_mono line prefixes rest q res h
      · by_cases hr : r = []
        · subst hr
          simp only [ne_eq, not_true_eq_false, if_false] at h
          exact glpmStep_mono line prefixes rest q res h
        · simp only [if_pos hr] at h
          by_cases hlt : r.length < q.length
          · rw [if_pos hlt] at h
            exact glpmStep_mono line prefixes rest q res h
          · rw [if_neg hlt] at h
            exact le_trans (Nat.le_of_not_lt hlt) (glpmStep_mono line prefixes rest r res h)
    · exact ih _ _ h pr htail hm q hq


theorem getLinePrefixMatch_longest {line : Str} {prefixes : List Str} {p : Str}
    (h : _getLinePrefixMatch line (prefixes.map LineExp.simple) prefixes = some p) :
    p ∈ prefixes ∧ matchesExp (LineExp.simple p) line = true ∧
      ∀ q ∈ prefixes, matchesExp (LineExp.simple q) line = true → q.length ≤ p.length := by
  simp only [_getLinePrefixMatch] at h
  rcases glpmStep_provenance line prefixes _ _ _ h with h1 | ⟨pr, hpr, hg, hm⟩
  · cases h1
  · have hp_mem : p ∈ prefixes := List.get?_mem hg
    have hpair : (prefixes.map LineExp.simple).get? pr.1 = some pr.2 := by
      rw [List.get?_eq_getElem?]
      exact List.mk_mem_enum_iff_getElem?.mp hpr
    rw [List.get?_map, hg] at hpair
    have hexp : pr.2 = LineExp.simple p := by
      simpa using hpair.symm
    refine ⟨hp_mem, by rwa [hexp] at hm, ?_⟩
    intro q hq hmq
    obtain ⟨j, hj⟩ := List.mem_iff_get?.mp hq
    have hjpair : (j, LineExp.simple q) ∈ (prefixes.map LineExp.simple).enum := by
      rw [List.mk_mem_enum_iff_getElem?, ← List.get?_eq_getElem?, List.get?_map, hj]
      rfl
    exact glpmStep_dominates line prefixes _ _ _ h (j, LineExp.simple q) hjpair hmq q hj

theorem matchFromWs_exists_drop {p s : Str}
    (h : matchFromWs (fun s2 => p.isPrefixOf s2) s = true) :
    ∃ k, k ≤ s.length ∧ p.isPrefixOf (s.drop k) = true := by
  induction s with
  | nil =>
    rw [matchFromWs] at h
    simp only [Bool.or_false] at h
    exact ⟨0, Nat.le_refl _, h⟩
  | cons c rest ih =>
    rw [matchFromWs] at h
    rcases Bool.or_eq_true_iff.mp h with h1 | h2
    · exact ⟨0, Nat.zero_le _, h1⟩
    · obtain ⟨k, hk, hpk⟩ := ih (Bool.and_eq_true_iff.mp h2).2
      exact ⟨k + 1, Nat.succ_le_succ hk, by simpa using hpk⟩

theorem jsIndexOf_find {p s : Str} (h : ∃ k, k ≤ s.length ∧ p.isPrefixOf (s.drop k) = true) :
    ∃ n, jsIndexOf s p = some n ∧ p.isPrefixOf (s.drop n) = true := by
  obtain ⟨k, hk, hpk⟩ := h
  have hsome : (jsIndexOf s p).isSome = true := by
    rw [jsIndexOf, List.find?_isSome]
    exact ⟨k, by simpa [List.mem_range] using Nat.lt_succ_of_le hk, hpk⟩
  obtain ⟨n, hn⟩ := Option.isSome_iff_exists.mp hsome
  refine ⟨n, hn, ?_⟩
  rw [jsIndexOf] at hn
  exact List.find?_some (p := fun m => List.isPrefixOf p (List.drop m s)) hn

/-- C7: when uncommenting a line matching several configured prefixes, the
builder selects the longest matching prefix and removes exactly one
occurrence of it — the edit deletes the range from the prefix occurrence
through its end plus the `padding` string immediately following when present,
and nothing else. -/
theorem c7_longest_match_removal (prefixes : List Str) (padding : Str) (doc : List Str) (i : Nat) (p : Str)
    (hm : _getLinePrefixMatch (getLine doc i)
      (_createLineExpressions prefixes none none) prefixes = some p)
    (hp : ¬(p = [])) :
    (p ∈ prefixes ∧
      ∀ q ∈ prefixes, matchesExp (LineExp.simple q) (getLine doc i) = true →
        q.length ≤ p.length) ∧
    ∃ n, jsIndexOf (getLine doc i) p = some n ∧
      ((getLine doc i).drop n).take p.length = p ∧
      uncommentLineEdit doc (_createLineExpressions prefixes none none) prefixes padding i =
        some ⟨[], ⟨i, n⟩, some ⟨i, n + p.length +
          (if ((getLine doc i).drop (n + p.length)).take padding.length = padding
           then padding.length else 0)⟩⟩ := by
  rw [createLineExpressions_no_block] at hm
  obtain ⟨hpmem, hpmatch, hlong⟩ := getLinePrefixMatch_longest hm
  obtain ⟨n, hfind, hpfx⟩ :=
    jsIndexOf_find (matchFromWs_exists_drop (by simpa [matchesExp] using hpmatch))
  refine ⟨⟨hpmem, hlong⟩, n, hfind, ?_, ?_⟩
  · have := (List.prefix_iff_eq_take).mp (List.isPrefixOf_iff_prefix.mp hpfx)
    exact this.symm
  · rw [uncommentLineEdit, createLineExpressions_no_block, hm]
    simp only [if_neg hp, hfind, Option.getD_some, Option.some.injEq]
    by_cases hpad : ((getLine doc i).drop (n + p.length)).take padding.length = padding
    · simp [hpad]
    · simp [hpad]

/-- C6 (witness): a range whose non-blank line `//x` matches and whose blank
line is ignored classifies as fully commented, and the resulting uncomment
edit deletes text. -/
theorem c6_uncomment_iff_all_commented_witness :
    _containsNotLineComment [['/', '/', 'x'], [' ']] 0 1
      (_createLineExpressions [['/', '/']] none none) = false ∧
    (⟨[], ⟨0, 0⟩, some ⟨0, 2⟩⟩ : EditUnit).text = [] ∧
    (⟨[], ⟨0, 0⟩, some ⟨0, 2⟩⟩ : EditUnit).stop?.isSome = true :=
  ⟨by decide,
    (c6_uncomment_iff_all_commented [['/', '/', 'x'], [' ']] [['/', '/']] none none
      ⟨⟨⟨0, 0⟩, ⟨2, 0⟩, false, true, false⟩, []⟩ {}).2.2 (by decide)
      ⟨[], ⟨0, 0⟩, some ⟨0, 2⟩⟩ (by decide)⟩

/-- C7 (witness): with prefixes `["//", "////", "#"]` and the line `////x`,
the builder removes exactly `////` — the edit spans columns 0 to 4. -/
theorem c7_longest_match_removal_witness :
    _getLinePrefixMatch (getLine [['/', '/', '/', '/', 'x']] 0)
      (_createLineExpressions [['/', '/'], ['/', '/', '/', '/'], ['#']] none none)
      [['/', '/'], ['/', '/', '/', '/'], ['#']] = some ['/', '/', '/', '/'] ∧
    uncommentLineEdit [['/', '/', '/', '/', 'x']]
      (_createLineExpressions [['/', '/'], ['/', '/', '/', '/'], ['#']] none none)
      [['/', '/'], ['/', '/', '/', '/'], ['#']] [] 0 =
      some ⟨[], ⟨0, 0⟩, some ⟨0, 4⟩⟩ := by
  refine ⟨by decide, ?_⟩
  obtain ⟨-, n, hfind, -, hedit⟩ :=
    c7_longest_match_removal [['/', '/'], ['/', '/', '/', '/'], ['#']] []
      [['/', '/', '/', '/', 'x']] 0 ['/', '/', '/', '/'] (by decide) (by decide)
  have hn : n = 0 := by
    have h0 : jsIndexOf (getLine [['/', '/', '/', '/', 'x']] 0) ['/', '/', '/', '/'] =
        some 0 := by decide
    rw [h0] at hfind
    exact (Option.some.inj hfind).symm
  subst hn
  simpa using hedit

theorem cmpPos_lt_iff (a b : Pos) :
    cmpPos a b < 0 ↔ (a.line < b.line ∨ (a.line = b.line ∧ a.ch < b.ch)) := by
  rw [cmpPos]
  split_ifs with h <;> omega

theorem cmpPos_le_iff (a b : Pos) :
    cmpPos a b ≤ 0 ↔ (a.line < b.line ∨ (a.line = b.line ∧ a.ch ≤ b.ch)) := by
  rw [cmpPos]
  split_ifs with h <;> omega

theorem changeEnd_of_ne_nil {textLines : List Str} (start stop : Pos)
    (h : textLines ≠ []) :
    changeEnd textLines start stop =
      ⟨start.line + textLines.length - 1,
        (textLines.getLast!).length + (if textLines.length = 1 then start.ch else 0)⟩ := by
  cases textLines with
  | nil => exact absurd rfl h
  | cons t ts => rfl

theorem adjust_after_components (pos : Pos) (textLines : List Str) (start stop : Pos)
    (h1 : ¬(cmpPos pos start < 0)) (h2 : ¬(cmpPos pos stop ≤ 0)) :
    adjustPosForChange pos textLines start stop =
      ⟨((pos.line : Int) + textLines.length - ((stop.line : Int) - start.line) - 1).toNat,
        (if pos.line = stop.line then
          ((pos.ch : Int) + ((changeEnd textLines start stop).ch : Int) - stop.ch).toNat
        else pos.ch)⟩ := by
  rw [adjustPosForChange, if_neg h1, if_neg h2]
  by_cases hl : pos.line = stop.line
  · simp [hl]
  · simp [hl]

/-- C8: the Multi-Edit Engine re-maps, through each applied edit, exactly the
selections that do not belong to the descriptor being applied or are flagged
`isBeforeEdit` (first conjunct); for such a selection, an endpoint strictly
before the edited span is untouched, an endpoint strictly after it shifts by
exactly the inserted-versus-removed line delta and (on the end line) column
delta, and no endpoint is ever re-mapped strictly inside the edited span
`[start, changeEnd]`. -/
theorem c8_selection_shift_exact (pos : Pos) (textLines : List Str) (start stop : Pos)
    (htl : textLines ≠ []) (hws : cmpPos start stop ≤ 0) :
    (∀ (index selIndex : Nat) (edit : EditUnit) (sel : Sel),
      (sel.isBeforeEdit = true ∨ selIndex ≠ index) →
      remapSel index selIndex edit sel =
        { sel with
          start := adjustPosForChange sel.start (splitLines edit.text) edit.start (effEnd edit),
          stop := adjustPosForChange sel.stop (splitLines edit.text) edit.start (effEnd edit) }) ∧
    (cmpPos pos start < 0 → adjustPosForChange pos textLines start stop = pos) ∧
    (cmpPos pos stop > 0 →
      ((adjustPosForChange pos textLines start stop).line : Int) =
          (pos.line : Int) + ((textLines.length : Int) - 1) -
            ((stop.line : Int) - start.line) ∧
      ((adjustPosForChange pos textLines start stop).ch : Int) =
          (pos.ch : Int) +
            (if pos.line = stop.line
             then ((changeEnd textLines start stop).ch : Int) - stop.ch else 0)) ∧
    ¬(cmpPos start (adjustPosForChange pos textLines start stop) < 0 ∧
        cmpPos (adjustPosForChange pos textLines start stop)
          (changeEnd textLines start stop) < 0) := by
  have hL : 1 ≤ textLines.length := List.length_pos.mpr htl
  have hce := @changeEnd_of_ne_nil textLines start stop htl
  refine ⟨?_, ?_, ?_, ?_⟩
  · intro index selIndex edit sel hcond
    rw [remapSel]
    have : (sel.isBeforeEdit || decide (selIndex ≠ index)) = true := by
      rcases hcond with h | h
      · simp [h]
      · simp [h]
    rw [if_pos this]
  · intro h
    rw [adjustPosForChange, if_pos h]
  · intro h
    have h1 : ¬(cmpPos pos start < 0) := by
      rw [cmpPos_lt_iff]
      rw [cmpPos_le_iff] at hws
      rw [cmpPos] at h
      rcases hws with hws | hws <;> push_neg <;> constructor <;> intros <;> omega
    have h2 : ¬(cmpPos pos stop ≤ 0) := by omega
    rw [adjust_after_components pos textLines start stop h1 h2]
    have hib : ¬(cmpPos pos stop ≤ 0) := h2
    rw [cmpPos] at h
    constructor
    · simp only []
      split_ifs at h with hlx
      · omega
      · omega
    · by_cases hl : pos.line = stop.line
      · simp only [if_pos hl]
        rw [hce]
        simp only []
        split_ifs at h with hlx
        · exact absurd hl hlx
        · rw [hce] at *
          simp only [] at *
          omega
      · simp [hl]
  · by_cases hc1 : cmpPos pos start < 0
    · rw [adjustPosForChange, if_pos hc1]
      rintro ⟨ha, -⟩
      rw [cmpPos_lt_iff] at hc1 ha
      omega
    · by_cases hc2 : cmpPos pos stop ≤ 0
      · rw [adjustPosForChange, if_neg hc1, if_pos hc2]
        rintro ⟨-, hb⟩
        rw [cmpPos_lt_iff] at hb
        omega
      · have hcomp := adjust_after_components pos textLines start stop hc1 hc2
        rw [cmpPos_lt_iff] at hc1
        push_neg at hc1
        rw [cmpPos_le_iff] at hws
        by_cases hl : pos.line = stop.line
        · have hchgt : stop.ch < pos.ch := by
            rw [cmpPos, if_neg (by simpa using hl)] at hc2
            omega
          rw [if_pos hl] at hcomp
          rw [hcomp]
          rintro ⟨-, hb⟩
          rw [cmpPos_lt_iff, hce] at hb
          rw [hce] at hcomp
          simp only [] at hb
          by_cases hone : textLines.length = 1 <;> simp only [hone, if_true, if_false] at hb <;>
            omega
        · have hlgt : stop.line < pos.line := by
            rw [cmpPos, if_pos (by simpa using hl)] at hc2
            omega
          rw [if_neg hl] at hcomp
          rw [hcomp]
          rintro ⟨-, hb⟩
          rw [cmpPos_lt_iff, hce] at hb
          simp only [] at hb
          omega

/-- C8 (witness): replacing `[⟨1,1⟩, ⟨1,3⟩)` by a one-character line shifts
the same-line position `⟨1,7⟩` to `⟨1,6⟩`: line delta 0, column delta -1. -/
theorem c8_selection_shift_exact_witness :
    ([['a']] : List Str) ≠ [] ∧ cmpPos ⟨1, 1⟩ ⟨1, 3⟩ ≤ 0 ∧ cmpPos ⟨1, 7⟩ ⟨1, 3⟩ > 0 ∧
    (((adjustPosForChange ⟨1, 7⟩ [['a']] ⟨1, 1⟩ ⟨1, 3⟩).line : Int) =
        (1 : Int) + ((1 : Int) - 1) - ((1 : Int) - 1) ∧
      ((adjustPosForChange ⟨1, 7⟩ [['a']] ⟨1, 1⟩ ⟨1, 3⟩).ch : Int) =
        (7 : Int) + (if (1 : Nat) = 1
          then ((changeEnd [['a']] ⟨1, 1⟩ ⟨1, 3⟩).ch : Int) - 3 else 0)) :=
  ⟨by decide, by decide, by decide,
    (c8_selection_shift_exact ⟨1, 7⟩ [['a']] ⟨1, 1⟩ ⟨1, 3⟩ (by decide)
      (by decide)).2.2.1 (by decide)⟩

theorem cmpPos_antisymm (a b : Pos) : cmpPos a b = -(cmpPos b a) := by
  rw [cmpPos, cmpPos]
  split_ifs <;> omega

instance : IsTotal Desc descLe := by
  constructor
  intro a b
  unfold descLe leDesc
  rcases a.edit with _ | ⟨e1, r1⟩ <;> rcases b.edit with _ | ⟨e2, r2⟩ <;> simp
  have := cmpPos_antisymm e1.start e2.start
  omega

instance : IsTrans Desc descLe := by
  constructor
  intro a b c hab hbc
  unfold descLe leDesc at *
  rcases ha : a.edit with _ | ⟨e1, r1⟩ <;> rcases hb : b.edit with _ | ⟨e2, r2⟩ <;>
    rcases hc : c.edit with _ | ⟨e3, r3⟩ <;> simp_all
  rw [cmpPos_le_iff] at hab hbc ⊢
  omega

theorem sortDescs_sorted (edits : List Desc) : List.Sorted descLe (sortDescs edits) :=
  List.sorted_insertionSort descLe edits

theorem sortDescs_perm (edits : List Desc) : List.Perm (sortDescs edits) edits :=
  List.perm_insertionSort descLe edits

theorem preflight_adjacent {L : List Desc} (h : preflightOk L = true) :
    ∀ i di dj, L.get? i = some di → L.get? (i + 1) = some dj → checkPair di dj = true := by
  induction L with
  | nil => intro i di dj hdi; cases hdi
  | cons d rest ih =>
    intro i di dj hdi hdj
    cases rest with
    | nil =>
      rcases i with _ | i
      · cases hdj
      · cases hdi
    | cons d2 rest2 =>
      rw [preflightOk] at h
      obtain ⟨hcp, hrest⟩ := Bool.and_eq_true_iff.mp h
      rcases i with _ | i
      · simp only [List.get?] at hdi hdj
        cases hdi; cases hdj
        exact hcp
      · exact ih hrest i di dj hdi hdj

theorem sorted_real_propagate {L : List Desc} (hs : List.Sorted descLe L) :
    ∀ i j di dj, i ≤ j → L.get? i = some di → L.get? j = some dj →
      di.edit ≠ [] → dj.edit ≠ [] ∨ i = j := by
  intro i j di dj hij hdi hdj hne
  rcases Nat.lt_or_ge i j with hlt | hge
  · left
    have hi : i < L.length := by
      by_contra hh
      rw [List.get?_eq_none.mpr (Nat.le_of_not_lt hh)] at hdi
      cases hdi
    have hj : j < L.length := by
      by_contra hh
      rw [List.get?_eq_none.mpr (Nat.le_of_not_lt hh)] at hdj
      cases hdj
    have hrel := (List.pairwise_iff_get.mp hs) ⟨i, hi⟩ ⟨j, hj⟩ hlt
    have hgi : L.get ⟨i, hi⟩ = di := by
      rw [List.get?_eq_get hi] at hdi
      exact Option.some.inj hdi
    have hgj : L.get ⟨j, hj⟩ = dj := by
      rw [List.get?_eq_get hj] at hdj
      exact Option.some.inj hdj
    rw [hgi, hgj] at hrel
    unfold descLe leDesc at hrel
    rcases hdie : di.edit with _ | ⟨e1, r1⟩
    · exact absurd hdie hne
    · rcases hdje : dj.edit with _ | ⟨e2, r2⟩
      · simp only [hdie, hdje] at hrel
        cases hrel
      · simp [hdje]
  · right
    omega

theorem cmpPos_le_trans {a b c : Pos} (h1 : cmpPos a b ≤ 0) (h2 : cmpPos b c ≤ 0) :
    cmpPos a c ≤ 0 := by
  rw [cmpPos_le_iff] at h1 h2 ⊢
  omega

theorem preflight_chain {L : List Desc} (hpre : preflightOk L = true)
    (hs : List.Sorted descLe L)
    (hwf : ∀ d ∈ L, ∀ e ∈ d.edit, wfEdit e) :
    ∀ j i di dj, i < j → L.get? i = some di → L.get? j = some dj →
      ∀ e ∈ dj.edit, ∀ p ∈ di.edit, cmpPos (effEnd e) p.start ≤ 0 := by
  intro j
  induction j using Nat.strong_induction_on with
  | _ j ih =>
    intro i di dj hij hdi hdj e he p hp
    rcases Nat.eq_or_lt_of_le (Nat.succ_le_of_lt hij) with heq | hlt
    · have hcp := preflight_adjacent hpre i di dj hdi (by rw [show i + 1 = j from heq]; exact hdj)
      unfold checkPair at hcp
      have h2 := (List.all_eq_true.mp ((List.all_eq_true.mp hcp) e he)) p hp
      simp only [Bool.not_eq_true', decide_eq_false_iff_not, not_lt] at h2
      exact h2
    · have hjlen : j < L.length := by
        rcases List.get?_eq_some.mp hdj with ⟨h, _⟩
        exact h
      have hj1len : j - 1 < L.length := by omega
      obtain ⟨dm, hdm⟩ : ∃ dm, L.get? (j - 1) = some dm := by
        rw [List.get?_eq_get hj1len]
        exact ⟨_, rfl⟩
      have hdi_real : di.edit ≠ [] := List.ne_nil_of_mem hp
      have hdm_real : dm.edit ≠ [] := by
        rcases sorted_real_propagate hs i (j - 1) di dm (by omega) hdi hdm hdi_real with
          h | h
        · exact h
        · omega
      obtain ⟨p2, hp2⟩ := List.exists_mem_of_ne_nil dm.edit hdm_real
      have hadj := preflight_adjacent hpre (j - 1) dm dj hdm
        (by rw [show j - 1 + 1 = j by omega]; exact hdj)
      unfold checkPair at hadj
      have hstep := (List.all_eq_true.mp ((List.all_eq_true.mp hadj) e he)) p2 hp2
      simp only [Bool.not_eq_true', decide_eq_false_iff_not, not_lt] at hstep
      have hwf2 := hwf dm (List.get?_mem hdm) p2 hp2
      have hrec := ih (j - 1) (by omega) i di dm (by omega) hdi hdm p2 hp2 p hp
      exact cmpPos_le_trans (cmpPos_le_trans hstep hwf2) hrec

theorem sublist_pair_get? {α : Type} {a b : α} {L : List α} (h : List.Sublist [a, b] L) :
    ∃ i j, i < j ∧ L.get? i = some a ∧ L.get? j = some b := by
  induction L with
  | nil => cases h
  | cons x rest ih =>
    cases h with
    | cons _ h2 =>
      obtain ⟨i, j, hij, hi, hj⟩ := ih h2
      exact ⟨i + 1, j + 1, by omega, hi, hj⟩
    | cons₂ _ h2 =>
      have hb : b ∈ rest := List.singleton_sublist.mp h2
      obtain ⟨k, hk⟩ := List.mem_iff_get?.mp hb
      exact ⟨0, k + 1, by omega, rfl, hk⟩

theorem perm_pair_cases {α : Type} {x y a b : α} (h : List.Perm [x, y] [a, b]) :
    (x = a ∧ y = b) ∨ (x = b ∧ y = a) := by
  have hx : x ∈ [a, b] := h.mem_iff.mp (List.mem_cons_self _ _)
  rcases List.mem_cons.mp hx with rfl | hx2
  · left
    refine ⟨rfl, ?_⟩
    have h2 := h.cons_inv
    simpa using List.perm_singleton.mp h2
  · right
    have hxb : x = b := by simpa using hx2
    refine ⟨hxb, ?_⟩
    have hswap : List.Perm [a, b] [b, a] := List.Perm.swap b a []
    have h2 : List.Perm [x, y] [b, a] := h.trans hswap
    rw [hxb] at h2
    have h3 := h2.cons_inv
    simpa using List.perm_singleton.mp h3

theorem subperm_pair_get? {α : Type} {a b : α} {L : List α}
    (h : List.Subperm [a, b] L) :
    ∃ i j, i ≠ j ∧ L.get? i = some a ∧ L.get? j = some b := by
  obtain ⟨l, hperm, hsub⟩ := h
  have hlen : l.length = 2 := by
    rw [hperm.length_eq]
    rfl
  rcases l with _ | ⟨x, _ | ⟨y, _ | _⟩⟩ <;> simp at hlen
  rcases perm_pair_cases hperm with ⟨rfl, rfl⟩ | ⟨rfl, rfl⟩
  · obtain ⟨i, j, hij, hi, hj⟩ := sublist_pair_get? hsub
    exact ⟨i, j, by omega, hi, hj⟩
  · obtain ⟨i, j, hij, hi, hj⟩ := sublist_pair_get? hsub
    exact ⟨j, i, by omega, hj, hi⟩

/-- C2 (amended): for every batch of well-formed edit descriptors in which
some edit of one descriptor properly overlaps (has a genuinely intersecting
replaced span with) an edit of another descriptor, `doMultipleEdits` throws
the overlap exception.  The thrown path is the preflight check, which in the
function runs before any `replaceRange`: the error return carries no new
buffer, so the text is untouched. -/
theorem c2_throws_on_proper_overlap (doc : List Str) (edits : List Desc)
    (hwf : ∀ d ∈ edits, ∀ e ∈ d.edit, wfEdit e)
    (d1 d2 : Desc) (hsub : List.Subperm [d1, d2] edits)
    (e p : EditUnit) (he : e ∈ d1.edit) (hp : p ∈ d2.edit)
    (hov : properOverlap e p) :
    doMultipleEdits doc edits = .error "doMultipleEdits: Overlapping edits specified" := by
  have hnot : ¬(preflightOk (sortDescs edits) = true) := by
    intro hpre
    have hwf2 : ∀ d ∈ sortDescs edits, ∀ e2 ∈ d.edit, wfEdit e2 := by
      intro d hd
      exact hwf d ((sortDescs_perm edits).mem_iff.mp hd)
    have hsub2 : List.Subperm [d1, d2] (sortDescs edits) :=
      hsub.trans (sortDescs_perm edits).symm.subperm
    obtain ⟨i, j, hij, hi, hj⟩ := subperm_pair_get? hsub2
    rcases Nat.lt_or_ge i j with hlt | hge
    · have hchain := preflight_chain hpre (sortDescs_sorted edits) hwf2 j i d1 d2
        hlt hi hj p hp e he
      have ha := cmpPos_antisymm (effEnd p) e.start
      have := hov.1
      rw [properOverlap] at hov
      omega
    · have hlt : j < i := by omega
      have hchain := preflight_chain hpre (sortDescs_sorted edits) hwf2 i j d2 d1
        hlt hj hi e he p hp
      have ha := cmpPos_antisymm (effEnd e) p.start
      have := hov.2
      omega
  simp only [doMultipleEdits, if_neg hnot]


/-- C2 (counterexample): the claim's literal overlap reading — "some edit of
one descriptor ends strictly after the start of an edit of another
descriptor" — is satisfied by two disjoint edits `[0,1)` and `[5,6)` (the
second ends strictly after the first starts), yet `doMultipleEdits` succeeds
instead of throwing. -/
theorem c2_literal_overlap_no_throw :
    cmpPos (effEnd ⟨['y'], ⟨0, 5⟩, some ⟨0, 6⟩⟩) (⟨0, 0⟩ : Pos) > 0 ∧
    (doMultipleEdits [['a', 'b', 'c', 'd', 'e', 'f', 'g']]
      [⟨[⟨['x'], ⟨0, 0⟩, some ⟨0, 1⟩⟩], []⟩,
       ⟨[⟨['y'], ⟨0, 5⟩, some ⟨0, 6⟩⟩], []⟩]).isOk = true := by
  exact ⟨by decide, rfl⟩

/-- C2 (witness): two genuinely intersecting deletions `[0,3)` and `[2,4)`
in different descriptors make `doMultipleEdits` throw. -/
theorem c2_throws_on_proper_overlap_witness :
    properOverlap ⟨[], ⟨0, 0⟩, some ⟨0, 3⟩⟩ ⟨[], ⟨0, 2⟩, some ⟨0, 4⟩⟩ ∧
    doMultipleEdits [['a', 'b', 'c', 'd', 'e']]
      [⟨[⟨[], ⟨0, 0⟩, some ⟨0, 3⟩⟩], []⟩, ⟨[⟨[], ⟨0, 2⟩, some ⟨0, 4⟩⟩], []⟩] =
      .error "doMultipleEdits: Overlapping edits specified" :=
  ⟨by decide,
    c2_throws_on_proper_overlap [['a', 'b', 'c', 'd', 'e']]
      [⟨[⟨[], ⟨0, 0⟩, some ⟨0, 3⟩⟩], []⟩, ⟨[⟨[], ⟨0, 2⟩, some ⟨0, 4⟩⟩], []⟩]
      (by decide)
      ⟨[⟨[], ⟨0, 0⟩, some ⟨0, 3⟩⟩], []⟩ ⟨[⟨[], ⟨0, 2⟩, some ⟨0, 4⟩⟩], []⟩
      (List.Subperm.refl _) ⟨[], ⟨0, 0⟩, some ⟨0, 3⟩⟩ ⟨[], ⟨0, 2⟩, some ⟨0, 4⟩⟩
      (by decide) (by decide) (by decide)⟩


theorem sorted_perm_eq {L1 L2 : List Desc}
    (hperm : List.Perm L1 L2) (hs1 : List.Sorted descLe L1) (hs2 : List.Sorted descLe L2)
    (hanti : ∀ a ∈ L1, ∀ b ∈ L1, descLe a b → descLe b a → a = b) :
    L1 = L2 := by
  induction L1 generalizing L2 with
  | nil => exact (List.Perm.nil_eq hperm)
  | cons a t1 ih =>
    rcases L2 with _ | ⟨b, t2⟩
    · exact absurd hperm (by simp)
    · have hab : a = b := by
        by_contra hne
        have ha2 : a ∈ t2 := by
          rcases List.mem_cons.mp (hperm.mem_iff.mp (List.mem_cons_self _ _)) with h | h
          · exact absurd h hne
          · exact h
        have hb1 : b ∈ t1 := by
          rcases List.mem_cons.mp (hperm.mem_iff.mpr (List.mem_cons_self _ _)) with h | h
          · exact absurd h.symm hne
          · exact h
        have h1 : descLe a b := (List.sorted_cons.mp hs1).1 b hb1
        have h2 : descLe b a := (List.sorted_cons.mp hs2).1 a ha2
        exact hne (hanti a (List.mem_cons_self _ _) b (List.mem_cons_of_mem _ hb1) h1 h2)
      subst hab
      have heq := ih hperm.cons_inv (List.sorted_cons.mp hs1).2 (List.sorted_cons.mp hs2).2
        (fun x hx y hy => hanti x (List.mem_cons_of_mem _ hx) y (List.mem_cons_of_mem _ hy))
      rw [heq]

/-- C3 (amended): for every set of edit descriptors in which every descriptor
has at least one sub-edit and the start positions of the descriptors' first
sub-edits are pairwise distinct, any two permutations of the set give
`doMultipleEdits` results with the same final text and the same final
selection list: the descending sort then has a unique sorted order, and the
whole engine is a function of the sorted list. -/
theorem c3_perm_independent_distinct_starts (doc : List Str) (l1 l2 : List Desc)
    (hperm : List.Perm l1 l2)
    (hreal : ∀ d ∈ l1, d.edit ≠ [])
    (hkeys : l1.Pairwise (fun d1 d2 => firstEditStart d1 ≠ firstEditStart d2)) :
    doMultipleEdits doc l1 = doMultipleEdits doc l2 := by
  have hsort : sortDescs l1 = sortDescs l2 := by
    apply sorted_perm_eq
      ((sortDescs_perm l1).trans (hperm.trans (sortDescs_perm l2).symm))
      (sortDescs_sorted l1) (sortDescs_sorted l2)
    intro a ha b hb h1 h2
    have ha1 := (sortDescs_perm l1).mem_iff.mp ha
    have hb1 := (sortDescs_perm l1).mem_iff.mp hb
    by_contra hne
    have hkey := hkeys.forall (fun x y h => Ne.symm h) ha1 hb1 hne
    have hra := hreal a ha1
    have hrb := hreal b hb1
    unfold descLe leDesc at h1 h2
    rcases hae : a.edit with _ | ⟨e1, r1⟩
    · exact absurd hae hra
    rcases hbe : b.edit with _ | ⟨e2, r2⟩
    · exact absurd hbe hrb
    simp only [hae, hbe] at h1 h2
    have h1p : cmpPos e2.start e1.start ≤ 0 := of_decide_eq_true h1
    have h2p : cmpPos e1.start e2.start ≤ 0 := of_decide_eq_true h2
    have hcomp : e1.start.line = e2.start.line ∧ e1.start.ch = e2.start.ch := by
      rw [cmpPos_le_iff] at h1p h2p
      omega
    have hstart : e1.start = e2.start := by
      obtain ⟨h1c, h2c⟩ := hcomp
      calc e1.start = ⟨e1.start.line, e1.start.ch⟩ := rfl
        _ = ⟨e2.start.line, e2.start.ch⟩ := by rw [h1c, h2c]
        _ = e2.start := rfl
    apply hkey
    rw [firstEditStart, firstEditStart, hae, hbe]
    simp [hstart]
  simp only [doMultipleEdits, hsort]

/-- C3 (counterexample): two descriptors inserting different text at the same
position are "mutually non-overlapping" (their empty spans do not properly
intersect, and the engine's preflight accepts both orders), yet the two
submission orders produce different final texts, so order-independence fails
as claimed. -/
theorem c3_same_start_order_dependent :
    List.Perm
      [(⟨[⟨['a'], ⟨0, 0⟩, none⟩], []⟩ : Desc), ⟨[⟨['b'], ⟨0, 0⟩, none⟩], []⟩]
      [(⟨[⟨['b'], ⟨0, 0⟩, none⟩], []⟩ : Desc), ⟨[⟨['a'], ⟨0, 0⟩, none⟩], []⟩] ∧
    ¬ properOverlap ⟨['a'], ⟨0, 0⟩, none⟩ ⟨['b'], ⟨0, 0⟩, none⟩ ∧
    doMultipleEdits [['X']]
      [⟨[⟨['a'], ⟨0, 0⟩, none⟩], []⟩, ⟨[⟨['b'], ⟨0, 0⟩, none⟩], []⟩] =
      .ok ([['b', 'a', 'X']], []) ∧
    doMultipleEdits [['X']]
      [⟨[⟨['b'], ⟨0, 0⟩, none⟩], []⟩, ⟨[⟨['a'], ⟨0, 0⟩, none⟩], []⟩] =
      .ok ([['a', 'b', 'X']], []) ∧
    ([['b', 'a', 'X']] : List Str) ≠ [['a', 'b', 'X']] :=
  ⟨by decide, by decide, rfl, rfl, by decide⟩

/-- C3 (witness): two insertion descriptors with distinct start positions
yield the same result under both submission orders. -/
theorem c3_perm_independent_distinct_starts_witness :
    List.Perm
      [(⟨[⟨['a'], ⟨0, 0⟩, none⟩], []⟩ : Desc), ⟨[⟨['b'], ⟨0, 1⟩, none⟩], []⟩]
      [(⟨[⟨['b'], ⟨0, 1⟩, none⟩], []⟩ : Desc), ⟨[⟨['a'], ⟨0, 0⟩, none⟩], []⟩] ∧
    doMultipleEdits [['X']]
      [⟨[⟨['a'], ⟨0, 0⟩, none⟩], []⟩, ⟨[⟨['b'], ⟨0, 1⟩, none⟩], []⟩] =
      doMultipleEdits [['X']]
      [⟨[⟨['b'], ⟨0, 1⟩, none⟩], []⟩, ⟨[⟨['a'], ⟨0, 0⟩, none⟩], []⟩] :=
  ⟨by decide,
    c3_perm_independent_distinct_starts [['X']] _ _ (by decide) (by decide)
      (by constructor
          · intro b hb
            simp only [List.mem_singleton] at hb
            subst hb
            decide
          · exact List.pairwise_singleton _ _)⟩

/-- C9: whenever the block-comment classification finds a prefix/suffix pair
and then a second prefix occurrence inside the selection bound
(`invalidComment`), the builder yields the empty edit list with the tracked
selections untouched, and applying that descriptor through `doMultipleEdits`
leaves the document text unchanged and returns the selection as it was. -/
theorem c9_invalid_comment_noop (editor : Editor) (pfx sfx : Str) (linePfxs : List Str) (sel : Sel)
    (hasSel : Bool) (command : String) (options : CommentOptions)
    (hinv : (classifyBlockComment editor pfx sfx linePfxs sel hasSel).invalidComment = true) :
    _getBlockCommentPrefixSuffixEdit editor pfx sfx linePfxs sel none hasSel
      command options = some ⟨[], [sel]⟩ ∧
    doMultipleEdits editor.lines [⟨[], [sel]⟩] =
      .ok (editor.lines, [{ sel with isBeforeEdit := false }]) := by
  constructor
  · rw [_getBlockCommentPrefixSuffixEdit, mkBlockCommentEdit]
    simp [hinv]
  · rw [doMultipleEdits_single_noop]
    simp [List.insertionSort, List.orderedInsert]

/-- C9 (witness): a selection spanning two block comments (`/*a*/ b /*c*/`)
classifies as `invalidComment` and yields the no-op descriptor. -/
theorem c9_invalid_comment_noop_witness :
    (classifyBlockComment
      { lines := [['/', '*', 'a', '*', '/', ' ', 'b', ' ', '/', '*', 'c', '*', '/']],
        tokens := [⟨0, 0, 5, ['/', '*', 'a', '*', '/'], some "comment"⟩,
                   ⟨0, 5, 6, [' '], none⟩,
                   ⟨0, 6, 7, ['b'], some "variable"⟩,
                   ⟨0, 7, 8, [' '], none⟩,
                   ⟨0, 8, 13, ['/', '*', 'c', '*', '/'], some "comment"⟩] }
      ['/', '*'] ['*', '/'] [['/', '/']]
      ⟨⟨0, 0⟩, ⟨0, 13⟩, false, true, false⟩ true).invalidComment = true ∧
    _getBlockCommentPrefixSuffixEdit
      { lines := [['/', '*', 'a', '*', '/', ' ', 'b', ' ', '/', '*', 'c', '*', '/']],
        tokens := [⟨0, 0, 5, ['/', '*', 'a', '*', '/'], some "comment"⟩,
                   ⟨0, 5, 6, [' '], none⟩,
                   ⟨0, 6, 7, ['b'], some "variable"⟩,
                   ⟨0, 7, 8, [' '], none⟩,
                   ⟨0, 8, 13, ['/', '*', 'c', '*', '/'], some "comment"⟩] }
      ['/', '*'] ['*', '/'] [['/', '/']]
      ⟨⟨0, 0⟩, ⟨0, 13⟩, false, true, false⟩ none true "block" {} =
      some ⟨[], [⟨⟨0, 0⟩, ⟨0, 13⟩, false, true, false⟩]⟩ :=
  ⟨by decide,
    (c9_invalid_comment_noop _ ['/', '*'] ['*', '/'] [['/', '/']]
      ⟨⟨0, 0⟩, ⟨0, 13⟩, false, true, false⟩ true "block" {} (by decide)).1⟩
theorem convert_step_sum (e m : Bool) :
    ∀ (sels : List Sel) (acc : List LineSel),
      (((sels.foldl
        (fun (acc : List LineSel) sel =>
          let newStart : Pos := ⟨sel.start.line, 0⟩
          let hasSelection := ¬(newStart.line = sel.stop.line ∧ newStart.ch = sel.stop.ch)
          let newStop : Pos :=
            if e ∨ ¬hasSelection ∨ sel.stop.ch ≠ 0 then ⟨sel.stop.line + 1, 0⟩
            else sel.stop
          match acc with
          | prev :: rest =>
            let f := prev.selectionForEdit
            let within :=
              cmpPos f.start newStart ≤ 0 ∧
                (cmpPos newStart f.stop < 0 ∨ (m ∧ cmpPos newStart f.stop = 0))
            if within then
              { selectionForEdit := { f with stop := ⟨newStop.line, f.stop.ch⟩ },
                selectionsToTrack := prev.selectionsToTrack ++ [sel] } :: rest
            else
              ⟨{ sel with start := newStart, stop := newStop }, [sel]⟩ :: prev :: rest
          | [] => [⟨{ sel with start := newStart, stop := newStop }, [sel]⟩]) acc).map
        (fun ls => ls.selectionsToTrack.length)).sum) =
      ((acc.map (fun ls => ls.selectionsToTrack.length)).sum) + sels.length := by
  intro sels
  induction sels with
  | nil => intro acc; simp
  | cons s rest ih =>
    intro acc
    rw [List.foldl_cons, ih]
    rcases acc with _ | ⟨prev, accrest⟩
    · simp
      omega
    · by_cases hw : (cmpPos prev.selectionForEdit.start ⟨s.start.line, 0⟩ ≤ 0 ∧
        (cmpPos (⟨s.start.line, 0⟩ : Pos) prev.selectionForEdit.stop < 0 ∨
          (m ∧ cmpPos (⟨s.start.line, 0⟩ : Pos) prev.selectionForEdit.stop = 0)))
      · simp only [if_pos hw, List.map_cons, List.sum_cons, List.length_append]
        simp [List.sum_cons]
        omega
      · simp only [if_neg hw, List.map_cons, List.sum_cons]
        simp [List.sum_cons]
        omega

theorem convert_tracked_sum (sels : List Sel) (e m : Bool) :
    (((convertToLineSelections sels e m).map
      (fun ls => ls.selectionsToTrack.length)).sum) = sels.length := by
  rw [convertToLineSelections]
  rw [List.map_reverse, List.sum_reverse]
  simpa using convert_step_sum e m sels []

theorem mkBlockCommentEdit_sel_length {editor : Editor} {pfx sfx : Str} {sel : Sel}
    {tracked : List Sel} {command : String} {options : CommentOptions}
    {cls : BlockClass} {d : Desc}
    (h : mkBlockCommentEdit editor pfx sfx sel tracked command options cls = some d) :
    d.selection.length = tracked.length := by
  rw [mkBlockCommentEdit] at h
  by_cases hinv : cls.invalidComment = true
  · simp only [hinv, if_true, Option.some.injEq] at h
    subst h
    rfl
  · simp only [hinv, Bool.false_eq_true, if_false] at h
    by_cases hlu : cls.lineUncomment = true
    · simp [hlu] at h
    · simp only [hlu, Bool.false_eq_true, if_false] at h
      by_cases hcc : cls.canComment = true
      · simp only [hcc, if_true, Option.some.injEq] at h
        subst h
        simp
      · simp only [hcc, Bool.false_eq_true, if_false] at h
        rcases hpp : cls.prefixPos with _ | pp
        · rw [hpp] at h
          simp only [Option.some.injEq] at h
          subst h
          rfl
        · rw [hpp] at h
          simp only [Option.some.injEq] at h
          subst h
          simp

theorem getBlock_sel_length {editor : Editor} {pfx sfx : Str} {linePfxs : List Str}
    {sel : Sel} {tracked? : Option (List Sel)} {hasSel : Bool} {command : String}
    {options : CommentOptions} {d : Desc}
    (h : _getBlockCommentPrefixSuffixEdit editor pfx sfx linePfxs sel tracked? hasSel
      command options = some d) :
    d.selection.length = (tracked?.getD [sel]).length := by
  rw [_getBlockCommentPrefixSuffixEdit] at h
  exact mkBlockCommentEdit_sel_length h

theorem lineSelEditDesc_sel_length (editor : Editor) (hasSel : Bool) (command : String)
    (options : CommentOptions) (lineSel : LineSel) :
    (lineSelEditDesc editor hasSel command options lineSel).selection.length =
      lineSel.selectionsToTrack.length := by
  rw [lineSelEditDesc]
  by_cases hM : editor.hasMode = true
  · simp only [hM, if_true]
    rcases hP : _getLineCommentPrefixes
        (resolveDelimiters editor.cmMode options lineSel.selectionForEdit.start).lineComment
        none with _ | linePfxs
    · by_cases hB : (strTruthy (resolveDelimiters editor.cmMode options
          lineSel.selectionForEdit.start).blockCommentStart ||
          strTruthy (resolveDelimiters editor.cmMode options
            lineSel.selectionForEdit.start).blockCommentEnd) = true
      · simp only [hP, hB, if_true]
        rcases hE : _getLineCommentPrefixSuffixEdit editor
            ((resolveDelimiters editor.cmMode options
              lineSel.selectionForEdit.start).blockCommentStart.getD [])
            ((resolveDelimiters editor.cmMode options
              lineSel.selectionForEdit.start).blockCommentEnd.getD [])
            lineSel hasSel command options with _ | d
        · simp
        · simp only []
          rw [_getLineCommentPrefixSuffixEdit] at hE
          have := getBlock_sel_length hE
          simpa using this
      · simp only [hP, hB, Bool.false_eq_true, if_false]
    · simp only [hP]
      rw [_getLineCommentPrefixEdit]
      by_cases hC : _containsNotLineComment editor.lines
          lineSel.selectionForEdit.start.line
          (if lineSel.selectionForEdit.stop.ch = 0 then
            (lineSel.selectionForEdit.stop.line : Int) - 1
          else (lineSel.selectionForEdit.stop.line : Int))
          (_createLineExpressions linePfxs
            (resolveDelimiters editor.cmMode options
              lineSel.selectionForEdit.start).blockCommentStart
            (resolveDelimiters editor.cmMode options
              lineSel.selectionForEdit.start).blockCommentEnd) = true
      · simp [hC]
      · simp [hC]
  · simp [hM]

theorem lineEdits_sel_sum (editor : Editor) (sels : List Sel) (hasSel : Bool)
    (command : String) (options : CommentOptions) :
    (((_getLineCommentEdits editor sels hasSel command options).map
      (fun d => d.selection.length)).sum) = sels.length := by
  rw [_getLineCommentEdits, List.map_map]
  have hcong : ∀ ls ∈ convertToLineSelections sels false false,
      ((fun d => d.selection.length) ∘ lineSelEditDesc editor hasSel command options) ls =
        (fun ls => ls.selectionsToTrack.length) ls := by
    intro ls _
    exact lineSelEditDesc_sel_length editor hasSel command options ls
  rw [List.map_congr_left hcong]
  exact convert_tracked_sum sels false false

theorem mapIdx_lengths {α : Type} (g : Nat → α → α) (L : List (List α)) :
    (L.mapIdx (fun i sels => sels.map (g i))).map List.length = L.map List.length := by
  rw [List.mapIdx_eq_enum_map, List.map_map]
  have hcg : ∀ p ∈ L.enum,
      (List.length ∘ Function.uncurry fun i sels => List.map (g i) sels) p =
        (List.length ∘ Prod.snd) p := by
    intro p _
    simp [Function.uncurry]
  rw [List.map_congr_left hcg, ← List.map_map]
  rw [List.enum_map_snd]

theorem applyOneEdit_lengths (index : Nat) (e : EditUnit) (st : List Str × List (List Sel)) :
    (applyOneEdit index e st).2.map List.length = st.2.map List.length := by
  rw [applyOneEdit]
  exact mapIdx_lengths _ _

theorem applyEdits_lengths (sorted : List Desc) (doc : List Str) :
    (applyEdits sorted doc).2.map List.length =
      sorted.map (fun d => d.selection.length) := by
  rw [applyEdits]
  have hgen : ∀ (ps : List (Nat × Desc)) (st : List Str × List (List Sel)),
      ((ps.foldl (fun st p => p.2.edit.foldl (fun st e => applyOneEdit p.1 e st) st)
        st).2).map List.length = st.2.map List.length := by
    intro ps
    induction ps with
    | nil => intro st; rfl
    | cons p rest ih =>
      intro st
      rw [List.foldl_cons, ih]
      have hinner : ∀ (es : List EditUnit) (st2 : List Str × List (List Sel)),
          ((es.foldl (fun st e => applyOneEdit p.1 e st) st2).2).map List.length =
            st2.2.map List.length := by
        intro es
        induction es with
        | nil => intro st2; rfl
        | cons e2 rest2 ih2 =>
          intro st2
          rw [List.foldl_cons, ih2, applyOneEdit_lengths]
      exact hinner p.2.edit st
  rw [hgen]
  simp only [List.map_map]
  rfl

theorem doMultipleEdits_sel_count {doc : List Str} {edits : List Desc}
    {newDoc : List Str} {newSels : List Sel}
    (h : doMultipleEdits doc edits = .ok (newDoc, newSels)) :
    newSels.length = ((edits.map (fun d => d.selection.length)).sum) := by
  rw [doMultipleEdits] at h
  by_cases hpre : preflightOk (sortDescs edits) = true
  · simp only [hpre, if_true, Except.ok.injEq, Prod.mk.injEq] at h
    obtain ⟨-, hsels⟩ := h
    subst hsels
    rw [List.length_map]
    have hsort := (List.perm_insertionSort selLe
      ((applyEdits (sortDescs edits) doc).2.flatten)).length_eq
    rw [hsort, List.length_flatten]
    have hlens := applyEdits_lengths (sortDescs edits) doc
    rw [hlens]
    exact ((sortDescs_perm edits).map (fun d => d.selection.length)).sum_eq
  · simp [hpre] at h

theorem blockFold_sum (editor : Editor) (hasSel : Bool) (options : CommentOptions) :
    ∀ (sels : List Sel) (acc : List Desc × List Sel),
      (((sels.foldl
        (fun (acc : List Desc × List Sel) sel =>
          let edit? : Option Desc :=
            if editor.hasMode then
              let merged := resolveDelimiters editor.cmMode options sel.start
              let linePfxs := (_getLineCommentPrefixes merged.lineComment (some [])).getD []
              if strTruthy merged.blockCommentStart || strTruthy merged.blockCommentEnd then
                _getBlockCommentPrefixSuffixEdit editor
                  (merged.blockCommentStart.getD []) (merged.blockCommentEnd.getD [])
                  linePfxs sel none hasSel "block" options
              else some ⟨[], [sel]⟩
            else some ⟨[], [sel]⟩
          match edit? with
          | some e => (acc.1 ++ [e], acc.2)
          | none => (acc.1, acc.2 ++ [sel])) acc).1.map
            (fun d => d.selection.length)).sum +
        (sels.foldl
        (fun (acc : List Desc × List Sel) sel =>
          let edit? : Option Desc :=
            if editor.hasMode then
              let merged := resolveDelimiters editor.cmMode options sel.start
              let linePfxs := (_getLineCommentPrefixes merged.lineComment (some [])).getD []
              if strTruthy merged.blockCommentStart || strTruthy merged.blockCommentEnd then
                _getBlockCommentPrefixSuffixEdit editor
                  (merged.blockCommentStart.getD []) (merged.blockCommentEnd.getD [])
                  linePfxs sel none hasSel "block" options
              else some ⟨[], [sel]⟩
            else some ⟨[], [sel]⟩
          match edit? with
          | some e => (acc.1 ++ [e], acc.2)
          | none => (acc.1, acc.2 ++ [sel])) acc).2.length) =
      ((acc.1.map (fun d => d.selection.length)).sum + acc.2.length + sels.length) := by
  intro sels
  induction sels with
  | nil => intro acc; simp
  | cons s rest ih =>
    intro acc
    rw [List.foldl_cons, ih]
    by_cases hM : editor.hasMode = true
    · simp only [hM, if_true]
      by_cases hB : (strTruthy (resolveDelimiters editor.cmMode options s.start).blockCommentStart ||
          strTruthy (resolveDelimiters editor.cmMode options s.start).blockCommentEnd) = true
      · simp only [hB, if_true]
        rcases hE : _getBlockCommentPrefixSuffixEdit editor
            ((resolveDelimiters editor.cmMode options s.start).blockCommentStart.getD [])
            ((resolveDelimiters editor.cmMode options s.start).blockCommentEnd.getD [])
            ((_getLineCommentPrefixes
              (resolveDelimiters editor.cmMode options s.start).lineComment (some [])).getD [])
            s none hasSel "block" options with _ | d
        · simp only [hE]
          simp
          omega
        · simp only [hE]
          have hd := getBlock_sel_length hE
          simp only [Option.getD_some, List.length_singleton] at hd
          simp [hd]
          omega
      · simp only [hB, Bool.false_eq_true, if_false]
        simp
        omega
    · simp only [hM, Bool.false_eq_true, if_false]
      simp
      omega

/-- C10: every input selection of a `lineComment` or `blockComment` invocation
is carried through exactly one edit descriptor (real edit, invalid no-op,
no-syntax no-op, or the line-builder delegation), so when `doMultipleEdits`
succeeds the returned selection set has exactly one selection per input
selection. -/
theorem c10_selection_count_preserved (editor : Editor) (sels : List Sel) (options : CommentOptions) :
    (∀ newDoc newSels, lineCommand editor sels options = .ok (newDoc, newSels) →
      newSels.length = sels.length) ∧
    (∀ newDoc newSels, blockCommand editor sels options = .ok (newDoc, newSels) →
      newSels.length = sels.length) := by
  constructor
  · intro nd ns h
    rw [lineCommand] at h
    rw [doMultipleEdits_sel_count h, lineEdits_sel_sum]
  · intro nd ns h
    rw [blockCommand] at h
    rw [doMultipleEdits_sel_count h]
    rw [List.map_append, List.sum_append, lineEdits_sel_sum]
    have := blockFold_sum editor (anySelNonEmpty sels) options sels ([], [])
    simpa using this

/-- C10 (witness): a concrete single-cursor `lineComment` run returns exactly
one selection. -/
theorem c10_selection_count_preserved_witness :
    lineCommand { lines := [['x']], cmMode := {} }
      [⟨⟨0, 0⟩, ⟨0, 0⟩, false, true, false⟩]
      { lineComment := some (StrOrList.str ['/', '/']) } =
      .ok ([['/', '/', 'x']], [⟨⟨0, 2⟩, ⟨0, 2⟩, false, true, false⟩]) ∧
    ([⟨⟨0, 2⟩, ⟨0, 2⟩, false, true, false⟩] : List Sel).length =
      ([⟨⟨0, 0⟩, ⟨0, 0⟩, false, true, false⟩] : List Sel).length :=
  ⟨rfl,
    (c10_selection_count_preserved { lines := [['x']], cmMode := {} }
      [⟨⟨0, 0⟩, ⟨0, 0⟩, false, true, false⟩]
      { lineComment := some (StrOrList.str ['/', '/']) }).1
      [['/', '/', 'x']] [⟨⟨0, 2⟩, ⟨0, 2⟩, false, true, false⟩] rfl⟩

/-- C1 (counterexample): the double toggle is not an involution in general.
On the document `"  //x"` (a line-commented line with leading whitespace)
with a cursor at `(0,0)`, the first toggle uncomments — removing the `//`
found after the whitespace — giving `"  x"`, but the second toggle
re-comments by inserting `//` at column 0, giving `"//  x"`, not the
original text; the cursor ends at `(0,2)`, not `(0,0)`.  The line is
non-empty and no padding or indent option is involved, so this lies outside
the claim's excepted edge cases. -/
theorem c1_uncomment_comment_not_involutive :
    lineCommand { lines := [[' ', ' ', '/', '/', 'x']], cmMode := {} }
      [⟨⟨0, 0⟩, ⟨0, 0⟩, false, true, false⟩]
      { lineComment := some (StrOrList.str ['/', '/']) } =
      .ok ([[' ', ' ', 'x']], [⟨⟨0, 0⟩, ⟨0, 0⟩, false, true, false⟩]) ∧
    lineCommand { lines := [[' ', ' ', 'x']], cmMode := {} }
      [⟨⟨0, 0⟩, ⟨0, 0⟩, false, true, false⟩]
      { lineComment := some (StrOrList.str ['/', '/']) } =
      .ok ([['/', '/', ' ', ' ', 'x']], [⟨⟨0, 2⟩, ⟨0, 2⟩, false, true, false⟩]) ∧
    ([['/', '/', ' ', ' ', 'x']] : List Str) ≠ [[' ', ' ', '/', '/', 'x']] ∧
    (⟨⟨0, 2⟩, ⟨0, 2⟩, false, true, false⟩ : Sel) ≠ ⟨⟨0, 0⟩, ⟨0, 0⟩, false, true, false⟩ :=
  ⟨rfl, rfl, by decide, by decide⟩

theorem replaceRange_single_line (t : Str) (l ch1 ch2 : Nat) (L : List Str)
    (ht : splitLines t = [t]) :
    replaceRange t ⟨l, ch1⟩ ⟨l, ch2⟩ L =
      L.take l ++ [(getLine L l).take ch1 ++ t ++ (getLine L l).drop ch2] ++
        L.drop (l + 1) := by
  rw [replaceRange, ht]

theorem spliced_restore {L : List Str} {l : Nat} (hl : l < L.length) :
    L.take l ++ [getLine L l] ++ L.drop (l + 1) = L := by
  rw [getLine, List.getD_eq_getElem?_getD, List.getElem?_eq_getElem hl]
  simp only [Option.getD_some]
  rw [List.append_assoc, List.singleton_append, ← List.drop_eq_getElem_cons hl,
    List.take_append_drop]

theorem getLine_spliced (L : List Str) (l : Nat) (x : Str) (hl : l < L.length) :
    getLine (L.take l ++ [x] ++ L.drop (l + 1)) l = x := by
  rw [getLine, List.getD_eq_getElem?_getD, List.append_assoc, List.getElem?_append_right
    (by rw [List.length_take]; omega)]
  simp [List.length_take, Nat.min_eq_left (Nat.le_of_lt hl)]

theorem changeEnd_ins2 (l : Nat) : changeEnd [['/', '/']] ⟨l, 0⟩ ⟨l, 0⟩ = ⟨l, 2⟩ := rfl

theorem changeEnd_del2 (l : Nat) : changeEnd [[]] ⟨l, 0⟩ ⟨l, 2⟩ = ⟨l, 0⟩ := rfl

theorem cmpPos_same_line (l c1 c2 : Nat) :
    cmpPos ⟨l, c1⟩ ⟨l, c2⟩ = (c1 : Int) - c2 := by
  rw [cmpPos]
  simp

theorem adjust_insert2 (l c : Nat) :
    adjustPosForChange ⟨l, c⟩ [['/', '/']] ⟨l, 0⟩ ⟨l, 0⟩ = ⟨l, c + 2⟩ := by
  rw [adjustPosForChange]
  rcases Nat.eq_zero_or_pos c with rfl | hc
  · rw [if_neg (by rw [cmpPos_same_line]; omega), if_pos (by rw [cmpPos_same_line]; omega)]
    exact changeEnd_ins2 l
  · rw [if_neg (by rw [cmpPos_same_line]; omega), if_neg (by rw [cmpPos_same_line]; omega)]
    simp only [changeEnd_ins2, List.length_cons, List.length_nil, Pos.mk.injEq, if_pos rfl]
    refine ⟨by omega, ?_⟩
    rw [if_pos trivial]
    omega

theorem adjust_delete2 (l c : Nat) :
    adjustPosForChange ⟨l, c + 2⟩ [[]] ⟨l, 0⟩ ⟨l, 2⟩ = ⟨l, c⟩ := by
  rw [adjustPosForChange]
  rcases Nat.eq_zero_or_pos c with rfl | hc
  · rw [if_neg (by rw [cmpPos_same_line]; omega), if_pos (by rw [cmpPos_same_line]; omega)]
    exact changeEnd_del2 l
  · rw [if_neg (by rw [cmpPos_same_line]; omega), if_neg (by rw [cmpPos_same_line]; omega)]
    simp only [changeEnd_del2, List.length_cons, List.length_nil, Pos.mk.injEq, if_pos rfl]
    refine ⟨by omega, ?_⟩
    rw [if_pos trivial]
    omega

def slashOptions : CommentOptions := { lineComment := some (StrOrList.str ['/', '/']) }

theorem matchesExp_slash_append (x : Str) :
    matchesExp (LineExp.simple ['/', '/']) ('/' :: '/' :: x) = true := by
  simp [matchesExp, matchFromWs, List.isPrefixOf]

theorem getLinePrefixMatch_slash (x : Str) :
    _getLinePrefixMatch ('/' :: '/' :: x) [LineExp.simple ['/', '/']] [['/', '/']] =
      some ['/', '/'] := by
  simp [_getLinePrefixMatch, List.enum, List.enumFrom, matchesExp_slash_append]

theorem jsIndexOf_slash (x : Str) : jsIndexOf ('/' :: '/' :: x) ['/', '/'] = some 0 := by
  rw [jsIndexOf, List.range_succ_eq_map, List.find?_cons_of_pos]
  simp [List.isPrefixOf]

theorem uncommentLineEdit_slash (doc : List Str) (l : Nat) (x : Str)
    (hline : getLine doc l = ['/', '/'] ++ x) :
    uncommentLineEdit doc [LineExp.simple ['/', '/']] [['/', '/']] [] l =
      some ⟨[], ⟨l, 0⟩, some ⟨l, 2⟩⟩ := by
  simp [uncommentLineEdit, hline, getLinePrefixMatch_slash, jsIndexOf_slash]

theorem containsNot_slash_true {doc : List Str} {l : Nat}
    (hnw : hasNonWs (getLine doc l) = true)
    (hnm : matchesExp (LineExp.simple ['/', '/']) (getLine doc l) = false) :
    _containsNotLineComment doc l l [LineExp.simple ['/', '/']] = true := by
  simp [_containsNotLineComment, rangeList_same, _matchExpressions, hnw, hnm]

theorem containsNot_slash_false {doc : List Str} {l : Nat} {x : Str}
    (hline : getLine doc l = ['/', '/'] ++ x) :
    _containsNotLineComment doc l l [LineExp.simple ['/', '/']] = false := by
  simp [_containsNotLineComment, rangeList_same, _matchExpressions, hline,
    matchesExp_slash_append]

theorem lineSelEditDesc_slash (doc : List Str) (lineSel : LineSel) :
    lineSelEditDesc { lines := doc } false "line" slashOptions lineSel =
      _getLineCommentPrefixEdit doc [['/', '/']] none none lineSel slashOptions := rfl

theorem anySelNonEmpty_cursor (l c : Nat) (r pr b : Bool) :
    anySelNonEmpty [⟨⟨l, c⟩, ⟨l, c⟩, r, pr, b⟩] = false := by
  simp [anySelNonEmpty, cmpPos]

theorem fixTrackedSel_cursor (e : Int) (n l c : Nat) (r pr b : Bool) :
    fixTrackedSel e n ⟨⟨l, c⟩, ⟨l, c⟩, r, pr, b⟩ = ⟨⟨l, c⟩, ⟨l, c⟩, r, pr, true⟩ := by
  simp [fixTrackedSel, cmpPos]

theorem prefixEdit_comment_slash (doc : List Str) (l c : Nat) (r pr : Bool)
    (hnw : hasNonWs (getLine doc l) = true)
    (hnm : matchesExp (LineExp.simple ['/', '/']) (getLine doc l) = false) :
    _getLineCommentPrefixEdit doc [['/', '/']] none none
      ⟨⟨⟨l, 0⟩, ⟨l + 1, 0⟩, r, pr, false⟩, [⟨⟨l, c⟩, ⟨l, c⟩, r, pr, false⟩]⟩ slashOptions =
      ⟨[⟨['/', '/'], ⟨l, 0⟩, none⟩], [⟨⟨l, c⟩, ⟨l, c⟩, r, pr, true⟩]⟩ := by
  have hcreate : _createLineExpressions [['/', '/']] none none =
      [LineExp.simple ['/', '/']] := rfl
  simp only [_getLineCommentPrefixEdit]
  norm_num
  rw [hcreate, if_pos (containsNot_slash_true hnw hnm)]
  simp [rangeList_same, fixTrackedSel_cursor, slashOptions, paddingOf]

theorem prefixEdit_uncomment_slash (doc : List Str) (l c : Nat) (r pr : Bool) (x : Str)
    (hline : getLine doc l = ['/', '/'] ++ x) :
    _getLineCommentPrefixEdit doc [['/', '/']] none none
      ⟨⟨⟨l, 0⟩, ⟨l + 1, 0⟩, r, pr, false⟩, [⟨⟨l, c⟩, ⟨l, c⟩, r, pr, false⟩]⟩ slashOptions =
      ⟨[⟨[], ⟨l, 0⟩, some ⟨l, 2⟩⟩], [⟨⟨l, c⟩, ⟨l, c⟩, r, pr, true⟩]⟩ := by
  have hcreate : _createLineExpressions [['/', '/']] none none =
      [LineExp.simple ['/', '/']] := rfl
  simp only [_getLineCommentPrefixEdit]
  norm_num
  rw [hcreate, if_neg (by rw [containsNot_slash_false hline]; simp)]
  simp [rangeList_same, uncommentLineEdit_slash doc l x hline, slashOptions, paddingOf]

theorem lineEdits_comment_slash (doc : List Str) (l c : Nat) (r pr : Bool)
    (hnw : hasNonWs (getLine doc l) = true)
    (hnm : matchesExp (LineExp.simple ['/', '/']) (getLine doc l) = false) :
    _getLineCommentEdits { lines := doc } [⟨⟨l, c⟩, ⟨l, c⟩, r, pr, false⟩] false "line"
        slashOptions =
      [⟨[⟨['/', '/'], ⟨l, 0⟩, none⟩], [⟨⟨l, c⟩, ⟨l, c⟩, r, pr, true⟩]⟩] := by
  rw [_getLineCommentEdits, convertToLineSelections_cursor, List.map_cons, List.map_nil,
    lineSelEditDesc_slash, prefixEdit_comment_slash doc l c r pr hnw hnm]

theorem lineEdits_uncomment_slash (doc : List Str) (l c : Nat) (r pr : Bool) (x : Str)
    (hline : getLine doc l = ['/', '/'] ++ x) :
    _getLineCommentEdits { lines := doc } [⟨⟨l, c⟩, ⟨l, c⟩, r, pr, false⟩] false "line"
        slashOptions =
      [⟨[⟨[], ⟨l, 0⟩, some ⟨l, 2⟩⟩], [⟨⟨l, c⟩, ⟨l, c⟩, r, pr, true⟩]⟩] := by
  rw [_getLineCommentEdits, convertToLineSelections_cursor, List.map_cons, List.map_nil,
    lineSelEditDesc_slash, prefixEdit_uncomment_slash doc l c r pr x hline]

theorem doMultipleEdits_single_edit (doc : List Str) (e : EditUnit) (s : Sel) :
    doMultipleEdits doc [⟨[e], [s]⟩] =
      .ok (replaceRange e.text e.start (effEnd e) doc,
        [{ remapSel 0 0 e s with isBeforeEdit := false }]) := by
  simp [doMultipleEdits, sortDescs, List.insertionSort, List.orderedInsert, preflightOk,
    applyEdits, applyOneEdit, List.enum, List.enumFrom, List.mapIdx]

theorem remapSel_before_insert (l c : Nat) (r pr : Bool) :
    remapSel 0 0 ⟨['/', '/'], ⟨l, 0⟩, none⟩ ⟨⟨l, c⟩, ⟨l, c⟩, r, pr, true⟩ =
      ⟨⟨l, c + 2⟩, ⟨l, c + 2⟩, r, pr, true⟩ := by
  rw [remapSel, if_pos (by simp)]
  show Sel.mk (adjustPosForChange ⟨l, c⟩ [['/', '/']] ⟨l, 0⟩ ⟨l, 0⟩)
    (adjustPosForChange ⟨l, c⟩ [['/', '/']] ⟨l, 0⟩ ⟨l, 0⟩) r pr true = _
  rw [adjust_insert2]

theorem remapSel_before_delete (l c : Nat) (r pr : Bool) :
    remapSel 0 0 ⟨[], ⟨l, 0⟩, some ⟨l, 2⟩⟩ ⟨⟨l, c + 2⟩, ⟨l, c + 2⟩, r, pr, true⟩ =
      ⟨⟨l, c⟩, ⟨l, c⟩, r, pr, true⟩ := by
  rw [remapSel, if_pos (by simp)]
  show Sel.mk (adjustPosForChange ⟨l, c + 2⟩ [[]] ⟨l, 0⟩ ⟨l, 2⟩)
    (adjustPosForChange ⟨l, c + 2⟩ [[]] ⟨l, 0⟩ ⟨l, 2⟩) r pr true = _
  rw [adjust_delete2]

theorem c1_first_toggle (L : List Str) (l c : Nat) (r pr : Bool)
    (hnw : hasNonWs (getLine L l) = true)
    (hnm : matchesExp (LineExp.simple ['/', '/']) (getLine L l) = false) :
    lineCommand { lines := L } [⟨⟨l, c⟩, ⟨l, c⟩, r, pr, false⟩] slashOptions =
      .ok (L.take l ++ [['/', '/'] ++ getLine L l] ++ L.drop (l + 1),
        [⟨⟨l, c + 2⟩, ⟨l, c + 2⟩, r, pr, false⟩]) := by
  rw [lineCommand, anySelNonEmpty_cursor, lineEdits_comment_slash L l c r pr hnw hnm,
    doMultipleEdits_single_edit, remapSel_before_insert]
  dsimp only [effEnd, Option.getD]
  rw [replaceRange_single_line ['/', '/'] l 0 0 L rfl]
  simp

theorem c1_second_toggle (L : List Str) (l c : Nat) (r pr : Bool) (x : Str)
    (hline : getLine L l = ['/', '/'] ++ x) :
    lineCommand { lines := L } [⟨⟨l, c + 2⟩, ⟨l, c + 2⟩, r, pr, false⟩] slashOptions =
      .ok (L.take l ++ [x] ++ L.drop (l + 1), [⟨⟨l, c⟩, ⟨l, c⟩, r, pr, false⟩]) := by
  rw [lineCommand, anySelNonEmpty_cursor, lineEdits_uncomment_slash L l (c + 2) r pr x hline,
    doMultipleEdits_single_edit, remapSel_before_delete]
  dsimp only [effEnd, Option.getD]
  rw [replaceRange_single_line [] l 0 2 L rfl]
  simp [hline]

theorem take_spliced (L : List Str) (l : Nat) (x : Str) (hl : l < L.length) :
    (L.take l ++ [x] ++ L.drop (l + 1)).take l = L.take l := by
  rw [List.append_assoc]
  exact List.take_left' (by rw [List.length_take]; omega)

theorem drop_spliced (L : List Str) (l : Nat) (x : Str) (hl : l < L.length) :
    (L.take l ++ [x] ++ L.drop (l + 1)).drop (l + 1) = L.drop (l + 1) := by
  exact List.drop_left' (by simp [List.length_take]; omega)

/-- C1 (amended): a comment-then-uncomment cycle is exact.  For the line
toggle with a single line-comment prefix `//` (supplied via the options),
`indent` off and no padding, and a single cursor sitting on a line that has
a non-whitespace character and is not already line-commented, the first
toggle inserts `//` at column 0 of that line and shifts the cursor right by
two columns, and the second toggle removes it again, restoring exactly the
original document text and the original cursor position. -/
theorem c1_line_double_toggle_restores (L : List Str) (l c : Nat) (r pr : Bool)
    (hl : l < L.length)
    (hnw : hasNonWs (getLine L l) = true)
    (hnm : matchesExp (LineExp.simple ['/', '/']) (getLine L l) = false) :
    lineCommand { lines := L } [⟨⟨l, c⟩, ⟨l, c⟩, r, pr, false⟩] slashOptions =
      .ok (L.take l ++ [['/', '/'] ++ getLine L l] ++ L.drop (l + 1),
        [⟨⟨l, c + 2⟩, ⟨l, c + 2⟩, r, pr, false⟩]) ∧
    lineCommand { lines := L.take l ++ [['/', '/'] ++ getLine L l] ++ L.drop (l + 1) }
        [⟨⟨l, c + 2⟩, ⟨l, c + 2⟩, r, pr, false⟩] slashOptions =
      .ok (L, [⟨⟨l, c⟩, ⟨l, c⟩, r, pr, false⟩]) := by
  refine ⟨c1_first_toggle L l c r pr hnw hnm, ?_⟩
  have h2 := c1_second_toggle (L.take l ++ [['/', '/'] ++ getLine L l] ++ L.drop (l + 1))
    l c r pr (getLine L l) (getLine_spliced L l _ hl)
  rw [take_spliced L l _ hl, drop_spliced L l _ hl, spliced_restore hl] at h2
  exact h2

/-- C1 (witness): the double-toggle theorem applied at the one-line document
`"x"` with a cursor at the origin: toggling gives `"//x"` with the cursor at
`(0,2)`, and toggling again restores `"x"` with the cursor at `(0,0)`. -/
theorem c1_line_double_toggle_restores_witness :
    (0 : Nat) < 1 ∧ hasNonWs (getLine [['x']] 0) = true ∧
      matchesExp (LineExp.simple ['/', '/']) (getLine [['x']] 0) = false ∧
      (lineCommand { lines := [['x']] } [⟨⟨0, 0⟩, ⟨0, 0⟩, false, true, false⟩] slashOptions =
        .ok ([['/', '/', 'x']], [⟨⟨0, 2⟩, ⟨0, 2⟩, false, true, false⟩]) ∧
      lineCommand { lines := [['/', '/', 'x']] } [⟨⟨0, 2⟩, ⟨0, 2⟩, false, true, false⟩]
          slashOptions =
        .ok ([['x']], [⟨⟨0, 0⟩, ⟨0, 0⟩, false, true, false⟩])) :=
  ⟨by decide, by decide, by decide,
    c1_line_double_toggle_restores [['x']] 0 0 false true (by decide) (by decide) (by decide)⟩
